import Mathlib

/-!
Verification development for the resume-parser core (`src/utils/parser.py`).

Python strings are modeled as `List Char` (one `Char` per Unicode scalar
value, matching CPython's one-code-point-per-character strings).  Python's
locale-independent ASCII-range behaviour of `str.lower`, `str.upper`,
`str.title`, `str.capitalize`, `str.isalpha` and of the regex classes
`\d`, `\w` is modeled on the ASCII range (the resume texts the program
manipulates are ASCII apart from the whitespace/printability filtering,
which is modeled exactly).  Floating-point percentages are modeled as
exact rationals with round-half-to-even, Python's rounding mode.
-/

/-- Convert a Lean string literal to the `List Char` model of Python strings. -/
def str (s : String) : List Char := s.toList

/-- Python `str.isspace` / whitespace stripped by `str.strip()`:
the Unicode whitespace code points plus `\x1c`-`\x1f`. -/
def pyIsSpace (c : Char) : Bool :=
  c.toNat = 0x09 || c.toNat = 0x0A || c.toNat = 0x0B || c.toNat = 0x0C ||
  c.toNat = 0x0D || c.toNat = 0x1C || c.toNat = 0x1D || c.toNat = 0x1E ||
  c.toNat = 0x1F || c.toNat = 0x20 || c.toNat = 0x85 || c.toNat = 0xA0 ||
  c.toNat = 0x1680 || (0x2000 ≤ c.toNat && c.toNat ≤ 0x200A) ||
  c.toNat = 0x2028 || c.toNat = 0x2029 || c.toNat = 0x202F ||
  c.toNat = 0x205F || c.toNat = 0x3000

/-- ASCII lowercase letter. -/
def isLowerAZ (c : Char) : Bool := 'a' ≤ c && c ≤ 'z'

/-- ASCII uppercase letter. -/
def isUpperAZ (c : Char) : Bool := 'A' ≤ c && c ≤ 'Z'

/-- The regex class `[a-zA-Z]` (and ASCII fragment of Python `isalpha`). -/
def isAsciiLetter (c : Char) : Bool := isLowerAZ c || isUpperAZ c

/-- The regex class `\d` (ASCII model). -/
def isDigitC (c : Char) : Bool := '0' ≤ c && c ≤ '9'

/-- The regex class `\w` (ASCII model): letters, digits, underscore. -/
def isWordC (c : Char) : Bool := isAsciiLetter c || isDigitC c || c = '_'

/-- Python `str.lower` on one character (ASCII model). -/
def lowerC (c : Char) : Char :=
  if isUpperAZ c then Char.ofNat (c.toNat + 32) else c

/-- Python `str.upper` on one character (ASCII model). -/
def upperC (c : Char) : Char :=
  if isLowerAZ c then Char.ofNat (c.toNat - 32) else c

/-- Python `str.lower` (ASCII model). -/
def pyLower (l : List Char) : List Char := l.map lowerC

/-- Python `str.upper` (ASCII model). -/
def pyUpper (l : List Char) : List Char := l.map upperC

/-- Python `str.capitalize` (ASCII model): first character uppercased,
the rest lowercased. -/
def pyCapitalize : List Char → List Char
  | [] => []
  | c :: rest => upperC c :: pyLower rest

/-- Helper for `pyTitle`: `prevCased` records whether the previous character
was a (cased) letter. -/
def pyTitleGo (prevCased : Bool) : List Char → List Char
  | [] => []
  | c :: rest =>
    if isAsciiLetter c then
      (if prevCased then lowerC c else upperC c) :: pyTitleGo true rest
    else
      c :: pyTitleGo false rest

/-- Python `str.title` (ASCII model): each maximal run of letters is
capitalized; a letter following a non-letter starts a new word. -/
def pyTitle (l : List Char) : List Char := pyTitleGo false l

/-- Strip `pyIsSpace` characters from the front (the first half of
Python `str.strip()`). -/
def frontStrip (l : List Char) : List Char := l.dropWhile pyIsSpace

/-- Python `str.strip()`: whitespace removed from both ends. -/
def pyStrip (l : List Char) : List Char :=
  ((l.dropWhile pyIsSpace).reverse.dropWhile pyIsSpace).reverse

/-- Python `text.split('\n')`: split at every newline; a trailing newline
produces a final empty line, the empty string yields one empty line. -/
def splitLines : List Char → List (List Char)
  | [] => [[]]
  | c :: rest =>
    if c = '\n' then [] :: splitLines rest
    else
      match splitLines rest with
      | [] => [[c]]
      | l :: ls => (c :: l) :: ls

/-- Python `'\n'.join(lines)`. -/
def joinNL : List (List Char) → List Char
  | [] => []
  | [l] => l
  | l :: ls => l ++ '\n' :: joinNL ls

/-- Helper for `splitWs`: `acc` is the current word, reversed. -/
def splitWsGo (acc : List Char) : List Char → List (List Char)
  | [] => if acc.isEmpty then [] else [acc.reverse]
  | c :: rest =>
    if pyIsSpace c then
      if acc.isEmpty then splitWsGo [] rest
      else acc.reverse :: splitWsGo [] rest
    else splitWsGo (c :: acc) rest

/-- Python `candidate.split()` (no separator argument): split on runs of
whitespace, discarding empty fragments. -/
def splitWs (l : List Char) : List (List Char) := splitWsGo [] l

/-- Helper for `splitRuns`: `inRun` is true while inside a separator run,
`acc` is the current fragment, reversed. -/
def splitRunsGo (p : Char → Bool) (inRun : Bool) (acc : List Char) :
    List Char → List (List Char)
  | [] => [acc.reverse]
  | c :: rest =>
    if p c then
      if inRun then splitRunsGo p true acc rest
      else acc.reverse :: splitRunsGo p true [] rest
    else splitRunsGo p false (c :: acc) rest

/-- Python `re.split('[class]+', s)`: split at each maximal run of
separator characters, keeping empty fragments at the edges. -/
def splitRuns (p : Char → Bool) (l : List Char) : List (List Char) :=
  splitRunsGo p false [] l

/-- Is the needle a prefix of the haystack (plain `List` equality scan)? -/
def startsWithL (needle hay : List Char) : Bool := needle.isPrefixOf hay

/-- Python `needle in hay` for strings: contiguous-substring containment. -/
def containsSub (needle : List Char) : List Char → Bool
  | [] => needle.isPrefixOf []
  | c :: rest => needle.isPrefixOf (c :: rest) || containsSub needle rest

/-! ## `clean_text` (src/utils/parser.py, lines 174-205) -/

/-- The character set kept by the first normalization step of `clean_text`:
the complement of the regex class `[^\x09\x0A\x0D\x20-\x7E -￿]`. -/
def allowedChar (c : Char) : Bool :=
  c.toNat = 0x09 || c.toNat = 0x0A || c.toNat = 0x0D ||
  (0x20 ≤ c.toNat && c.toNat ≤ 0x7E) ||
  (0xA0 ≤ c.toNat && c.toNat ≤ 0xFFFF)

/-- Step 1 of `clean_text`:
`re.sub(r'[^\x09\x0A\x0D\x20-\x7E -￿]', ' ', text)`. -/
def cleanStep1 (l : List Char) : List Char :=
  l.map (fun c => if allowedChar c then c else ' ')

/-- Python: `text.replace('\r\n', '\n')`: left-to-right non-overlapping
replacement of the two-character sequence CR LF by LF. -/
def replaceCRLF : List Char → List Char
  | [] => []
  | [c] => [c]
  | c :: d :: rest =>
    if c = '\x0d' && d = '\n' then '\n' :: replaceCRLF rest
    else c :: replaceCRLF (d :: rest)

/-- Python: `text.replace('\r', '\n')`. -/
def replaceCR (l : List Char) : List Char :=
  l.map (fun c => if c = '\x0d' then '\n' else c)

/-- Python: `re.sub(r'\n{3,}', '\n\n', text)`: every maximal run of three or more
newlines becomes exactly two, i.e. runs of newlines are capped at two.
`n` counts the newlines of the current run already emitted. -/
def capNL : List Char → Nat → List Char
  | [], _ => []
  | c :: rest, n =>
    if c = '\n' then
      if 2 ≤ n then capNL rest n else '\n' :: capNL rest (n + 1)
    else c :: capNL rest 0

/-- The blank-line deduplication loop of `clean_text` (`prev_blank` flag):
an empty line is kept only when the previous line was not empty. -/
def dedupeBlank (prevBlank : Bool) : List (List Char) → List (List Char)
  | [] => []
  | l :: ls =>
    if l.isEmpty then
      if prevBlank then dedupeBlank true ls else [] :: dedupeBlank true ls
    else l :: dedupeBlank false ls

/-- Python: `clean_text` (lines 174-205): remove non-printables, normalize line
endings, cap newline runs, strip every line, drop repeated blank lines,
and strip the result. -/
def clean_text (text : List Char) : List Char :=
  let t1 := cleanStep1 text
  let t2 := replaceCR (replaceCRLF t1)
  let t3 := capNL t2 0
  let lines := (splitLines t3).map pyStrip
  let cleaned := dedupeBlank false lines
  pyStrip (joinNL cleaned)

/-! ## A small backtracking regex engine

The extractors use Python `re` patterns built from literals, character
classes, greedy bounded/unbounded repetition, optional parts, ordered
alternation and word boundaries.  `matchRE` enumerates the result states
of a match attempt in Python's backtracking preference order (greedy
first, left alternative first); the head of the list is the match Python
commits to.  A state is `(previous character, remaining input)`; the
previous character is needed for the `\b` assertion. -/

inductive RE where
  | eps : RE
  | cls (p : Char → Bool) : RE
  | seq (a b : RE) : RE
  | alt (a b : RE) : RE
  | opt (a : RE) : RE
  | repCls (m n : Nat) (p : Char → Bool) : RE
  | plusCls (p : Char → Bool) : RE
  | starCls (p : Char → Bool) : RE
  | starG (a : RE) : RE
  | wordB : RE

/-- The `\b` assertion: word-ness differs on the two sides. -/
def isWordBoundary (prev : Option Char) (s : List Char) : Bool :=
  (match prev with | some c => isWordC c | none => false) !=
  (match s with | c :: _ => isWordC c | [] => false)

/-- Consume exactly `k` characters, tracking the previous character. -/
def consumeN (prev : Option Char) (s : List Char) : Nat → Option Char × List Char
  | 0 => (prev, s)
  | k + 1 =>
    match s with
    | [] => (prev, [])
    | c :: rest => consumeN (some c) rest k

/-- Lengths `top, top-1, ..., m` in greedy (descending) order. -/
def greedyKs (m top : Nat) : List Nat :=
  (List.range (top + 1 - m)).map (fun i => top - i)

/-- Result states of the greedy class repetition `p{m,n}` at `(prev, s)`. -/
def repClsStates (p : Char → Bool) (m n : Nat) (prev : Option Char)
    (s : List Char) : List (Option Char × List Char) :=
  let run := (s.takeWhile p).length
  let top := min n run
  if run < m then [] else (greedyKs m top).map (consumeN prev s)

/-- The iteration loop of a greedy grouped star `(...)*`, parameterized by
the matcher `step` of the body: more iterations are preferred, and an
iteration that consumes nothing is not repeated (Python also stops a
repetition that matches empty).  `fuel` bounds the iteration count; since
every counted iteration consumes at least one character, a fuel of
`s.length + 1` is never exhausted. -/
def starGo (step : Option Char → List Char → List (Option Char × List Char)) :
    Nat → Option Char → List Char → List (Option Char × List Char)
  | 0, prev, s => [(prev, s)]
  | fuel + 1, prev, s =>
    ((step prev s).filter (fun st => st.2.length < s.length)).flatMap
      (fun st => starGo step fuel st.1 st.2) ++ [(prev, s)]

/-- All result states of matching `r` at `(prev, s)`, in Python's
backtracking preference order. -/
def matchRE : RE → Option Char → List Char → List (Option Char × List Char)
  | .eps, prev, s => [(prev, s)]
  | .cls p, _, s =>
    match s with
    | [] => []
    | c :: rest => if p c then [(some c, rest)] else []
  | .seq a b, prev, s =>
    (matchRE a prev s).flatMap (fun st => matchRE b st.1 st.2)
  | .alt a b, prev, s => matchRE a prev s ++ matchRE b prev s
  | .opt a, prev, s => matchRE a prev s ++ [(prev, s)]
  | .repCls m n p, prev, s => repClsStates p m n prev s
  | .plusCls p, prev, s => repClsStates p 1 ((s.takeWhile p).length) prev s
  | .starCls p, prev, s => repClsStates p 0 ((s.takeWhile p).length) prev s
  | .wordB, prev, s => if isWordBoundary prev s then [(prev, s)] else []
  | .starG a, prev, s => starGo (matchRE a) (s.length + 1) prev s

/-- The length of the match Python commits to at this position, if any. -/
def firstMatchLen (r : RE) (prev : Option Char) (s : List Char) : Option Nat :=
  (matchRE r prev s).head?.map (fun st => s.length - st.2.length)

/-- One step of `re.findall`: try the current position; on failure advance
one character, on success emit the match and continue after it (Python
advances one character past an empty match). -/
def findallGo (r : RE) : Nat → Option Char → List Char → List (List Char)
  | 0, _, _ => []
  | fuel + 1, prev, s =>
    match firstMatchLen r prev s with
    | some k =>
      if k = 0 then
        [] :: (match s with
               | [] => []
               | c :: rest => findallGo r fuel (some c) rest)
      else
        s.take k ::
          findallGo r fuel ((s.take k).getLast? <|> prev) (s.drop k)
    | none =>
      match s with
      | [] => []
      | c :: rest => findallGo r fuel (some c) rest

/-- Python `re.findall(pattern, s)` for a pattern with no capture groups:
the list of non-overlapping matches, scanning left to right. -/
def findall (r : RE) (s : List Char) : List (List Char) :=
  findallGo r (s.length + 1) none s

/-- A literal character. -/
def litC (c : Char) : RE := .cls (fun d => d = c)

/-- A literal string. -/
def litStr (w : List Char) : RE :=
  w.foldr (fun c acc => .seq (litC c) acc) .eps

/-- A literal string under `re.IGNORECASE`. -/
def litStrCI (w : List Char) : RE :=
  w.foldr (fun c acc => .seq (.cls (fun d => lowerC d = lowerC c)) acc) .eps

/-- Ordered alternation of a non-empty list of branches. -/
def altList : List RE → RE
  | [] => .eps
  | [r] => r
  | r :: rest => .alt r (altList rest)

/-! ## `extract_email` (lines 341-348) -/

/-- The local-part class `[A-Za-z0-9._%+\-]`. -/
def emailLocalClass (c : Char) : Bool :=
  isAsciiLetter c || isDigitC c || c = '.' || c = '_' || c = '%' ||
  c = '+' || c = '-'

/-- The domain class `[A-Za-z0-9.\-]`. -/
def emailDomainClass (c : Char) : Bool :=
  isAsciiLetter c || isDigitC c || c = '.' || c = '-'

/-- Pattern `\b[A-Za-z0-9._%+\-]+@[A-Za-z0-9.\-]+\.[A-Za-z]{2,7}\b`. -/
def emailRE : RE :=
  .seq .wordB (.seq (.plusCls emailLocalClass)
    (.seq (litC '@') (.seq (.plusCls emailDomainClass)
      (.seq (litC '.') (.seq (.repCls 2 7 isAsciiLetter) .wordB)))))

/-- Python: `extract_email` (lines 341-348): first match of the email pattern,
else the sentinel. -/
def extract_email (text : List Char) : List Char :=
  match findall emailRE text with
  | [] => str "Not Found"
  | m :: _ => m

/-! ## `extract_phone` (lines 351-379) -/

/-- The separator class `[\s\-\.]`. -/
def phoneSep (c : Char) : Bool := pyIsSpace c || c = '-' || c = '.'

/-- Pattern `\+\d{1,3}[\s\-\.]?\(?\d{1,4}\)?[\s\-\.]?\d{3,5}[\s\-\.]?\d{4,6}`. -/
def phoneRE1 : RE :=
  .seq (litC '+') (.seq (.repCls 1 3 isDigitC) (.seq (.opt (.cls phoneSep))
    (.seq (.opt (litC '(')) (.seq (.repCls 1 4 isDigitC)
      (.seq (.opt (litC ')')) (.seq (.opt (.cls phoneSep))
        (.seq (.repCls 3 5 isDigitC) (.seq (.opt (.cls phoneSep))
          (.repCls 4 6 isDigitC)))))))))

/-- Pattern `\(\d{3}\)[\s\-\.]?\d{3}[\s\-\.]?\d{4}`. -/
def phoneRE2 : RE :=
  .seq (litC '(') (.seq (.repCls 3 3 isDigitC) (.seq (litC ')')
    (.seq (.opt (.cls phoneSep)) (.seq (.repCls 3 3 isDigitC)
      (.seq (.opt (.cls phoneSep)) (.repCls 4 4 isDigitC))))))

/-- Pattern `\b\d{3}[\s\-\.]\d{3}[\s\-\.]\d{4}\b`. -/
def phoneRE3 : RE :=
  .seq .wordB (.seq (.repCls 3 3 isDigitC) (.seq (.cls phoneSep)
    (.seq (.repCls 3 3 isDigitC) (.seq (.cls phoneSep)
      (.seq (.repCls 4 4 isDigitC) .wordB)))))

/-- Pattern `\b[6-9]\d{9}\b`. -/
def phoneRE4 : RE :=
  .seq .wordB (.seq (.cls (fun c => '6' ≤ c && c ≤ '9'))
    (.seq (.repCls 9 9 isDigitC) .wordB))

/-- Pattern `\b\d{10,15}\b`. -/
def phoneRE5 : RE :=
  .seq .wordB (.seq (.repCls 10 15 isDigitC) .wordB)

/-- The ordered pattern list of `extract_phone`. -/
def phonePatterns : List RE := [phoneRE1, phoneRE2, phoneRE3, phoneRE4, phoneRE5]

/-- Helper for `collapseWs`: `inWs` is true inside a whitespace run. -/
def collapseWsGo (inWs : Bool) : List Char → List Char
  | [] => []
  | c :: rest =>
    if pyIsSpace c then
      if inWs then collapseWsGo true rest else ' ' :: collapseWsGo true rest
    else c :: collapseWsGo false rest

/-- Python: `re.sub(r'\s+', ' ', s)`: each maximal whitespace run becomes one space. -/
def collapseWs (l : List Char) : List Char := collapseWsGo false l

/-- The pattern loop of `extract_phone`: for each pattern in order, if it
has matches, clean the first match and return it when it has at least 10
digits; otherwise move on to the next pattern. -/
def phoneGo (text : List Char) : List RE → List Char
  | [] => str "Not Found"
  | p :: rest =>
    match findall p text with
    | [] => phoneGo text rest
    | m :: _ =>
      let phone := pyStrip (collapseWs m)
      if 10 ≤ (phone.filter isDigitC).length then phone
      else phoneGo text rest

/-- Python: `extract_phone` (lines 351-379). -/
def extract_phone (text : List Char) : List Char := phoneGo text phonePatterns


/-! ## `SKILLS_DB` and `extract_skills` (lines 57-110, 453-495) -/

/-- The skills vocabulary `SKILLS_DB`, in source order (duplicates
`bash` and `linux` included, as in the source). -/
def SKILLS_DB : List (List Char) :=
  [str "python", str "java", str "javascript", str "typescript", str "c",
   str "c++", str "c#", str "ruby", str "go", str "rust", str "swift",
   str "kotlin", str "php", str "r", str "matlab", str "scala", str "perl",
   str "bash", str "shell", str "powershell", str "vba", str "dart",
   str "lua", str "haskell", str "elixir",
   str "html", str "css", str "react", str "angular", str "vue",
   str "next.js", str "nuxt.js", str "jquery", str "bootstrap",
   str "tailwind", str "sass", str "less", str "webpack", str "vite",
   str "redux", str "svelte",
   str "node.js", str "express", str "django", str "flask", str "fastapi",
   str "spring", str "asp.net", str "laravel", str "rails", str "graphql",
   str "rest", str "soap", str "api", str "swagger", str "microservices",
   str "sql", str "mysql", str "postgresql", str "mongodb", str "sqlite",
   str "redis", str "cassandra", str "elasticsearch", str "oracle",
   str "mssql", str "dynamodb", str "firebase", str "neo4j", str "mariadb",
   str "couchdb", str "influxdb",
   str "aws", str "azure", str "gcp", str "docker", str "kubernetes",
   str "jenkins", str "ci/cd", str "terraform", str "ansible", str "nginx",
   str "apache", str "linux", str "git", str "github", str "gitlab",
   str "bitbucket", str "circleci", str "travis ci", str "helm",
   str "machine learning", str "deep learning", str "tensorflow",
   str "pytorch", str "keras", str "scikit-learn", str "pandas",
   str "numpy", str "matplotlib", str "seaborn", str "nlp",
   str "computer vision", str "opencv", str "huggingface",
   str "transformers", str "bert", str "gpt", str "llm",
   str "data analysis", str "data visualization", str "statistics",
   str "hadoop", str "spark", str "tableau", str "power bi",
   str "data mining", str "feature engineering", str "xgboost",
   str "lightgbm", str "random forest", str "neural network",
   str "android", str "ios", str "react native", str "flutter",
   str "xamarin", str "ionic",
   str "selenium", str "pytest", str "junit", str "jest", str "mocha",
   str "cypress", str "postman", str "unit testing",
   str "integration testing", str "test automation",
   str "jira", str "confluence", str "slack", str "trello", str "figma",
   str "photoshop", str "excel", str "visual studio", str "vs code",
   str "intellij", str "eclipse", str "jupyter", str "colab", str "linux",
   str "unix", str "windows server", str "bash", str "vim",
   str "agile", str "scrum", str "kanban", str "waterfall", str "tdd",
   str "bdd", str "devops", str "project management",
   str "communication", str "teamwork", str "leadership",
   str "problem solving", str "critical thinking", str "time management",
   str "adaptability"]

/-- Python: `true` unless the optional character is an ASCII letter (the negative
lookaround `(?<![a-zA-Z])` / `(?![a-zA-Z])` on one side). -/
def notLetterOpt : Option Char → Bool
  | none => true
  | some c => !isAsciiLetter c

/-- Python: `re.search` of `(?<![a-zA-Z])needle(?![a-zA-Z])` with a literal
needle: the needle occurs somewhere with no ASCII letter immediately
before or after.  `prev` is the character before the current position. -/
def searchIsolated (needle : List Char) : Option Char → List Char → Bool
  | prev, s =>
    (needle.isPrefixOf s && notLetterOpt prev &&
      notLetterOpt (s.drop needle.length).head?) ||
    match s with
    | [] => false
    | c :: rest => searchIsolated needle (some c) rest

/-- The acronym allowlist of `extract_skills` (line 477-479). -/
def acronymDB : List (List Char) :=
  [str "AWS", str "GCP", str "SQL", str "CSS", str "HTML", str "API",
   str "NLP", str "TDD", str "BDD", str "VBA"]

/-- The display form chosen on a hit (lines 477-484).  The second guard is
transcribed exactly from the source, `skill.upper() == skill.upper()`,
which is vacuously true. -/
def displaySkill (skill : List Char) : List Char :=
  if skill.contains '.' || skill.contains '/' || acronymDB.contains (pyUpper skill) then
    skill
  else if skill.length ≤ 4 && (pyUpper skill == pyUpper skill) then
    pyUpper skill
  else
    pyTitle skill

/-- The per-skill search of `extract_skills` (lines 464-475): a
word-boundary-anchored pattern for skills of length at most three, plain
substring search otherwise (the pattern is built from `skill.lower()`
and searched in `text.lower()`). -/
def skillHit (skill textLower : List Char) : Bool :=
  let sl := pyLower skill
  if skill.length ≤ 3 then searchIsolated sl none textLower
  else containsSub sl textLower

/-- The case-insensitive order-preserving deduplication loop
(lines 487-493); `seen` models the Python set of lowercased keys. -/
def dedupeCIGo (seen : List (List Char)) : List (List Char) → List (List Char)
  | [] => []
  | s :: rest =>
    let key := pyLower s
    if seen.contains key then dedupeCIGo seen rest
    else s :: dedupeCIGo (key :: seen) rest

/-- Lexicographic comparison of Python strings by code point
(the order used by `sorted`). -/
def lexLe : List Char → List Char → Bool
  | [], _ => true
  | _ :: _, [] => false
  | a :: as, b :: bs => if a < b then true else if b < a then false else lexLe as bs

/-- Python: `extract_skills` (lines 453-495): match every vocabulary entry,
format hits for display, deduplicate case-insensitively, sort. -/
def extract_skills (text : List Char) : List (List Char) :=
  let textLower := pyLower text
  let found := SKILLS_DB.filterMap (fun skill =>
    if skillHit skill textLower then some (displaySkill skill) else none)
  List.insertionSort (fun a b => lexLe a b) (dedupeCIGo [] found)


/-! ## `_extract_section` and specializations (lines 498-605) -/

/-- The master section-header keyword list (lines 508-514). -/
def all_section_headers : List (List Char) :=
  [str "experience", str "education", str "skills", str "projects",
   str "certifications", str "awards", str "publications",
   str "references", str "summary", str "objective", str "work history",
   str "employment", str "academic", str "achievements", str "interests",
   str "languages", str "volunteer", str "activities", str "contact",
   str "personal", str "internship", str "training", str "courses",
   str "hobbies", str "declaration"]

/-- The stop set: all known headers minus the target section's own
lowercased keywords (lines 517-518). -/
def stopKeywords (sectionKeywords : List (List Char)) : List (List Char) :=
  all_section_headers.filter
    (fun h => !(sectionKeywords.map pyLower).contains h)

/-- The in-section phase of `_extract_section` (lines 538-554): stop on a
short line containing a stop keyword, stop after three consecutive blank
lines, append non-blank stripped lines, cap at 40 lines.  `acc` is the
collected content, `ec` the consecutive-blank counter. -/
def sectionCollect (stopKws : List (List Char)) :
    List (List Char) → List (List Char) → Nat → List (List Char)
  | [], acc, _ => acc
  | line :: rest, acc, ec =>
    let stripped := pyStrip line
    let ll := pyLower stripped
    if (stopKws.any (fun kw => containsSub kw ll)) && stripped.length < 60 then
      acc
    else if stripped.isEmpty then
      if 3 ≤ ec + 1 then acc
      else if 40 ≤ acc.length then acc
      else sectionCollect stopKws rest acc (ec + 1)
    else
      let acc' := acc ++ [stripped]
      if 40 ≤ acc'.length then acc'
      else sectionCollect stopKws rest acc' 0

/-- The header-seeking phase of `_extract_section` (lines 530-535): a line
containing a target keyword and shorter than 80 characters enters the
section (the header line itself is discarded). -/
def sectionSeek (sectionKws stopKws : List (List Char)) :
    List (List Char) → List (List Char)
  | [] => []
  | line :: rest =>
    let stripped := pyStrip line
    let ll := pyLower stripped
    if sectionKws.any (fun kw => containsSub (pyLower kw) ll) then
      if stripped.length < 80 then sectionCollect stopKws rest [] 0
      else sectionSeek sectionKws stopKws rest
    else sectionSeek sectionKws stopKws rest

/-- Python: `_extract_section` (lines 498-556). -/
def extract_section (text : List Char) (sectionKeywords : List (List Char)) :
    List Char :=
  let stopKws := stopKeywords sectionKeywords
  let content := sectionSeek sectionKeywords stopKws (splitLines text)
  if content.isEmpty then str "Not Found" else joinNL content

/-- Sequence a list of regex parts. -/
def seqList (rs : List RE) : RE := rs.foldr .seq .eps

/-- An optional literal dot, `\.?`. -/
def optDot : RE := .opt (litC '.')

/-- The degree-detection pattern of `extract_education` (lines 570-576),
alternatives in source order, under `re.IGNORECASE`, each followed by
`[^\n]{0,120}`. -/
def degreeRE : RE :=
  .seq
    (altList
      [seqList [litStrCI (str "b"), optDot, litStrCI (str "tech")],
       seqList [litStrCI (str "b"), optDot, litStrCI (str "e"), optDot],
       seqList [litStrCI (str "b"), optDot, litStrCI (str "sc"), optDot],
       seqList [litStrCI (str "b"), optDot, litStrCI (str "com"), optDot],
       seqList [litStrCI (str "b"), optDot, litStrCI (str "a"), optDot],
       seqList [litStrCI (str "m"), optDot, litStrCI (str "tech")],
       seqList [litStrCI (str "m"), optDot, litStrCI (str "e"), optDot],
       seqList [litStrCI (str "m"), optDot, litStrCI (str "sc"), optDot],
       seqList [litStrCI (str "m"), optDot, litStrCI (str "b"), optDot,
                litStrCI (str "a"), optDot],
       seqList [litStrCI (str "m"), optDot, litStrCI (str "c"), optDot,
                litStrCI (str "a"), optDot],
       seqList [litStrCI (str "ph"), optDot, litStrCI (str "d"), optDot],
       litStrCI (str "bachelor"), litStrCI (str "master"),
       litStrCI (str "doctor"), litStrCI (str "diploma"),
       litStrCI (str "high school"), litStrCI (str "10th"),
       litStrCI (str "12th"), litStrCI (str "secondary"),
       litStrCI (str "senior secondary")])
    (.repCls 0 120 (fun c => c ≠ '\n'))

/-- Order-preserving exact deduplication, Python `dict.fromkeys`. -/
def dedupeExactGo (seen : List (List Char)) :
    List (List Char) → List (List Char)
  | [] => []
  | s :: rest =>
    if seen.contains s then dedupeExactGo seen rest
    else s :: dedupeExactGo (s :: seen) rest

/-- Python: `extract_education` (lines 559-581): section extraction with a
degree-pattern fallback when the section header is never found. -/
def extract_education (text : List Char) : List Char :=
  let keywords := [str "education", str "academic background",
    str "qualifications", str "academics", str "educational qualification"]
  let content := extract_section text keywords
  if content = str "Not Found" then
    match findall degreeRE text with
    | [] => content
    | ms => joinNL (dedupeExactGo [] ((ms.take 6).map pyStrip))
  else content

/-- Python: `extract_experience` (lines 584-594). -/
def extract_experience (text : List Char) : List Char :=
  extract_section text
    [str "work experience", str "professional experience", str "experience",
     str "employment history", str "work history", str "employment",
     str "career history", str "internship", str "internships"]

/-- Python: `extract_projects` (lines 597-605). -/
def extract_projects (text : List Char) : List Char :=
  extract_section text
    [str "projects", str "personal projects", str "academic projects",
     str "project work", str "key projects", str "notable projects"]


/-! ## `extract_name` (lines 212-338) -/

/-- The skip-keyword list of `extract_name` (lines 227-233). -/
def skip_words : List (List Char) :=
  [str "resume", str "curriculum", str "vitae", str "cv", str "profile",
   str "summary", str "objective", str "address", str "phone", str "email",
   str "contact", str "mobile", str "linkedin", str "github",
   str "portfolio", str "website", str "http", str "www", str "education",
   str "experience", str "skills", str "projects", str "certifications",
   str "declaration", str "references", str "date", str "place", str "@"]

/-- Python: `any(kw in candidate.lower() for kw in skip_words)`. -/
def hasSkipWord (candidate : List Char) : Bool :=
  skip_words.any (fun kw => containsSub kw (pyLower candidate))

/-- The character class kept by the 85%-alphabetic test of
`_is_name_like`: `c.isalpha() or c in '. -'` (ASCII model of `isalpha`). -/
def nameAlphaChar (c : Char) : Bool :=
  isAsciiLetter c || c = '.' || c = ' ' || c = '-'

/-- Python: `_is_name_like` (lines 235-253).  The float threshold
`alpha_chars / max(len, 1) < 0.85` is modeled exactly as the rational
comparison `20 * alpha_chars < 17 * max(len, 1)` (no candidate length
below 51 can fall between the double `0.85` and the rational `17/20`). -/
def is_name_like (candidate0 : List Char) : Bool :=
  let candidate := pyStrip candidate0
  if candidate.isEmpty || candidate.length < 2 then false
  else
    let words := splitWs candidate
    if !(1 ≤ words.length && words.length ≤ 5) then false
    else if !(words.all (fun w =>
        match w.head? with
        | some c => isAsciiLetter c
        | none => false)) then false
    else
      let alphaChars := (candidate.filter nameAlphaChar).length
      if 20 * alphaChars < 17 * (max candidate.length 1) then false
      else if hasSkipWord candidate then false
      else true

/-- Helper for `clean_line`: `re.sub(r'\s{2,}', ' ', s)` — each whitespace
run of length at least two becomes one space; an isolated whitespace
character is kept as-is.  `pend` holds a single pending whitespace
character, `inMany` is true inside an already-collapsed run. -/
def collapse2WsGo : Option Char → Bool → List Char → List Char
  | some d, _, [] => [d]
  | none, _, [] => []
  | pend, inMany, c :: rest =>
    if pyIsSpace c then
      match pend with
      | some _ => ' ' :: collapse2WsGo none true rest
      | none =>
        if inMany then collapse2WsGo none true rest
        else collapse2WsGo (some c) false rest
    else
      match pend with
      | some d => d :: c :: collapse2WsGo none false rest
      | none => c :: collapse2WsGo none false rest

/-- Python: `re.sub(r'\s{2,}', ' ', s)`. -/
def collapse2Ws (l : List Char) : List Char := collapse2WsGo none false l

/-- Python: `_clean_line` (lines 255-259): replace everything outside
`[A-Za-z\s\.\-]` by a space, collapse multi-whitespace, strip. -/
def clean_line (line : List Char) : List Char :=
  let cleaned := line.map (fun c =>
    if isAsciiLetter c || pyIsSpace c || c = '.' || c = '-' then c else ' ')
  pyStrip (collapse2Ws cleaned)

/-- Case-insensitive prefix test (ASCII model). -/
def startsWithCI (w l : List Char) : Bool :=
  startsWithL (pyLower w) (pyLower l)

/-- The part of the strategy-1 pattern after the optional `full`:
`name\s*[:;\-|]\s*(.+)`; returns the capture group.  The group `(.+)`
starts after the whitespace run following the punctuation, except that
at least one character is always left for the group (the greedy `\s*`
backtracks by one when `.+` would otherwise be empty). -/
def matchNameLabelCore (l : List Char) : Option (List Char) :=
  if startsWithCI (str "name") l then
    let r1 := (l.drop 4).dropWhile pyIsSpace
    match r1 with
    | p :: r2 =>
      if p = ':' || p = ';' || p = '-' || p = '|' then
        if r2.isEmpty then none
        else some (r2.drop (min ((r2.takeWhile pyIsSpace).length) (r2.length - 1)))
      else none
    | [] => none
  else none

/-- Strategy 1's `re.match(r'(?:full\s*)?name\s*[:;\-|]\s*(.+)', line,
re.IGNORECASE)`: try the branch consuming `full\s*` first, then the
branch without it. -/
def matchNameLabel (line : List Char) : Option (List Char) :=
  if startsWithCI (str "full") line then
    match matchNameLabelCore ((line.drop 4).dropWhile pyIsSpace) with
    | some g => some g
    | none => matchNameLabelCore line
  else matchNameLabelCore line

/-- Strategy 1 (lines 265-273): explicit name label in the first 15 lines. -/
def nameStrategy1 : List (List Char) → Option (List Char)
  | [] => none
  | line :: rest =>
    match matchNameLabel (pyStrip line) with
    | some g =>
      let candidate := clean_line g
      if is_name_like candidate then some (pyTitle candidate)
      else nameStrategy1 rest
    | none => nameStrategy1 rest

/-- Strategy 3 (lines 296-302): first short name-like line in the first
10 lines. -/
def nameStrategy3 : List (List Char) → Option (List Char)
  | [] => none
  | line :: rest =>
    let stripped := pyStrip line
    if stripped.isEmpty then nameStrategy3 rest
    else
      let cleaned := clean_line stripped
      if is_name_like cleaned && cleaned.length ≤ 50 then some (pyTitle cleaned)
      else nameStrategy3 rest

/-- Python: `' '.join(words)`. -/
def joinSp (ws : List (List Char)) : List Char := List.intercalate [' '] ws

/-- Strategy 4 (lines 308-319): salvage the very first non-empty line
among the first 5; the loop breaks after that line regardless. -/
def nameStrategy4 : List (List Char) → Option (List Char)
  | [] => none
  | line :: rest =>
    let stripped := pyStrip line
    if stripped.isEmpty then nameStrategy4 rest
    else
      let cleaned := clean_line stripped
      let words := (splitWs cleaned).filter (fun w => 2 ≤ w.length)
      let candidate := joinSp words
      if !candidate.isEmpty && 1 ≤ words.length && words.length ≤ 5 &&
          !hasSkipWord candidate then
        some (pyTitle candidate)
      else none

/-- Strategy 5 (lines 326-336): derive a name from the email address. -/
def nameStrategy5 (text : List Char) : Option (List Char) :=
  let email := extract_email text
  if email ≠ str "Not Found" then
    let localPart := email.takeWhile (fun c => c ≠ '@')
    let noDigits := localPart.map (fun c =>
      if isDigitC c || c = '_' then ' ' else c)
    let parts := splitRuns (fun c => c = '.' || c = '-' || c = '+') noDigits
    let parts' := (parts.map pyStrip).filter (fun p => 2 ≤ p.length)
    if parts'.isEmpty then none
    else some (joinSp (parts'.map pyCapitalize))
  else none

/-- Python: `extract_name` (lines 212-338) in the configuration without the
optional entity-recognition capability (`nlp is None`), in which
strategy 2 is skipped: ordered fallback through strategies 1, 3, 4, 5. -/
def extract_name (text : List Char) : List Char :=
  let lines := splitLines (pyStrip text)
  match nameStrategy1 (lines.take 15) with
  | some n => n
  | none =>
    match nameStrategy3 (lines.take 10) with
    | some n => n
    | none =>
      match nameStrategy4 (lines.take 5) with
      | some n => n
      | none =>
        match nameStrategy5 text with
        | some n => n
        | none => str "Not Found"


/-! ## `extract_linkedin` / `extract_github` (lines 382-450) -/

/-- The URL path-segment class `[\w\-\.%]`. -/
def urlNameClass (c : Char) : Bool :=
  isWordC c || c = '-' || c = '.' || c = '%'

/-- The query-string class `[^\s<>"]`. -/
def queryClass (c : Char) : Bool :=
  !pyIsSpace c && c ≠ '<' && c ≠ '>' && c ≠ '"'

/-- The optional scheme `(?:https?://)?` and optional `(?:www\.)?`. -/
def urlHead : RE :=
  .seq (.opt (seqList [litStrCI (str "http"), .opt (litStrCI (str "s")),
                       litStr (str "://")]))
    (.opt (.seq (litStrCI (str "www")) (litC '.')))

/-- The LinkedIn pattern (lines 392-399), under `re.IGNORECASE`. -/
def linkedinRE : RE :=
  seqList [urlHead, litStrCI (str "linkedin.com/in/"),
    .plusCls urlNameClass,
    .starG (.seq (litC '/') (.starCls urlNameClass)),
    .opt (.seq (litC '?') (.starCls queryClass))]

/-- Python: `url.rstrip('.,;)')`. -/
def rstripPunct (s : List Char) : List Char :=
  (s.reverse.dropWhile (fun c => c = '.' || c = ',' || c = ';' || c = ')')).reverse

/-- Shared URL post-processing (lines 404-410 and 438-441): strip, drop
trailing punctuation, prepend `https://` when no scheme is present. -/
def finishURL (m : List Char) : List Char :=
  let url := rstripPunct (pyStrip m)
  if startsWithL (str "http") (pyLower url) then url
  else str "https://" ++ url

/-- Python: `extract_linkedin` (lines 382-412). -/
def extract_linkedin (text : List Char) : List Char :=
  match findall linkedinRE text with
  | [] => str "Not Found"
  | m :: _ => finishURL m

/-- GitHub username first character: `[A-Za-z0-9]`. -/
def ghAlnum (c : Char) : Bool := isAsciiLetter c || isDigitC c

/-- GitHub username continuation: `[A-Za-z0-9\-]`. -/
def ghNameClass (c : Char) : Bool := ghAlnum c || c = '-'

/-- The GitHub URL pattern (lines 427-434), under `re.IGNORECASE`. -/
def githubURLRE : RE :=
  seqList [urlHead, litStrCI (str "github.com/"),
    .cls ghAlnum, .repCls 0 38 ghNameClass,
    .starG (.seq (litC '/') (.starCls urlNameClass)),
    .opt (.seq (litC '?') (.starCls queryClass))]

/-- One attempt of the label fallback
`github\s*[:\-|]\s*([A-Za-z0-9][A-Za-z0-9\-]{0,38})` at the current
position; returns the capture group (the username). -/
def githubLabelAt (s : List Char) : Option (List Char) :=
  if startsWithCI (str "github") s then
    let r1 := (s.drop 6).dropWhile pyIsSpace
    match r1 with
    | p :: r2 =>
      if p = ':' || p = '-' || p = '|' then
        let r3 := r2.dropWhile pyIsSpace
        match r3 with
        | c :: r4 =>
          if ghAlnum c then some (c :: (r4.takeWhile ghNameClass).take 38)
          else none
        | [] => none
      else none
    | [] => none
  else none

/-- Python: `re.search` of the label fallback: leftmost position wins. -/
def githubLabelGo : List Char → Option (List Char)
  | [] => githubLabelAt []
  | c :: rest =>
    match githubLabelAt (c :: rest) with
    | some g => some g
    | none => githubLabelGo rest

/-- Python: `extract_github` (lines 415-450): URL pattern first, then the
`github: username` label fallback. -/
def extract_github (text : List Char) : List Char :=
  match findall githubURLRE text with
  | m :: _ => finishURL m
  | [] =>
    match githubLabelGo text with
    | some username => str "https://github.com/" ++ username
    | none => str "Not Found"

/-! ## `calculate_skill_match` (lines 612-642) and `parse_resume` (649-711) -/

/-- Python `round` half-to-even on an exact rational. -/
def pyRound (x : ℚ) : ℤ :=
  if Int.fract x < 1/2 then ⌊x⌋
  else if (1 : ℚ)/2 < Int.fract x then ⌊x⌋ + 1
  else if ⌊x⌋ % 2 = 0 then ⌊x⌋ else ⌊x⌋ + 1

/-- Python: `round(x, 1)`: round to one decimal place. -/
def round1 (x : ℚ) : ℚ := (pyRound (x * 10) : ℚ) / 10

/-- Python: `calculate_skill_match` (lines 612-642): percentage, matched list,
missing list.  Python sets of lowercased skills are modeled as lists
with membership tests. -/
def calculate_skill_match (resume_skills : List (List Char))
    (job_description : List Char) : ℚ × List (List Char) × List (List Char) :=
  if job_description.isEmpty || resume_skills.isEmpty then (0, [], [])
  else
    let job_skills := extract_skills job_description
    if job_skills.isEmpty then (0, [], [])
    else
      let resumeLower := resume_skills.map pyLower
      let jobLower := job_skills.map pyLower
      let matchedLower := resumeLower.filter (fun s => jobLower.contains s)
      let missingLower := jobLower.filter (fun s => !resumeLower.contains s)
      let matched := job_skills.filter (fun s => matchedLower.contains (pyLower s))
      let missing := job_skills.filter (fun s => missingLower.contains (pyLower s))
      let percentage :=
        round1 ((matched.length : ℚ) / (job_skills.length : ℚ) * 100)
      (percentage, matched, missing)

/-- The two caller-visible error kinds of `parse_resume` (`ValueError` /
reader failures in the source). -/
inductive ParseErr where
  | unsupportedFormat (ext : List Char)
  | emptyText
  | readFailure (msg : List Char)
deriving DecidableEq, Repr

/-- The `skill_match` sub-record assembled by `parse_resume`
(lines 697-703). -/
structure SkillMatch where
  percentage : ℚ
  matched_skills : List (List Char)
  missing_skills : List (List Char)
  total_jd_skills : Nat
  matched_count : Nat
deriving DecidableEq, Repr

/-- The record returned by `parse_resume` (lines 687-709). -/
structure ParsedResume where
  name : List Char
  email : List Char
  phone : List Char
  linkedin : List Char
  github : List Char
  skills : List (List Char)
  education : List Char
  experience : List Char
  projects : List Char
  skill_match : SkillMatch
  raw_text_preview : List Char
deriving DecidableEq, Repr

/-- Python: `parse_resume` (lines 649-711).  The document readers are external
collaborators doing I/O; they are passed in as functions from the file
path to either raw text or a read error, exactly the contract the
source assumes of `extract_text_from_pdf` / `extract_text_from_docx`. -/
def parse_resume (readPdf readDocx : List Char → Except ParseErr (List Char))
    (file_path file_extension : List Char) (job_description : List Char) :
    Except ParseErr ParsedResume := do
  let ext := pyLower file_extension
  let raw_text ←
    if ext = str ".pdf" then readPdf file_path
    else if ext = str ".docx" || ext = str ".doc" then readDocx file_path
    else .error (.unsupportedFormat ext)
  if (pyStrip raw_text).isEmpty then .error .emptyText
  else
    let cleaned_text := clean_text raw_text
    let skills := extract_skills cleaned_text
    let res := calculate_skill_match skills job_description
    .ok { name := extract_name cleaned_text
          email := extract_email cleaned_text
          phone := extract_phone cleaned_text
          linkedin := extract_linkedin cleaned_text
          github := extract_github cleaned_text
          skills := skills
          education := extract_education cleaned_text
          experience := extract_experience cleaned_text
          projects := extract_projects cleaned_text
          skill_match :=
            { percentage := res.1
              matched_skills := res.2.1
              missing_skills := res.2.2
              total_jd_skills := res.2.1.length + res.2.2.length
              matched_count := res.2.1.length }
          raw_text_preview :=
            if 800 < cleaned_text.length then
              cleaned_text.take 800 ++ str "\n...[truncated]"
            else cleaned_text }

/-! ## Claim C9: unsupported extensions fail before any reader runs -/

/-- C9: for every pair of reader functions, file path, job description and
extension whose lowercased form is outside {".pdf", ".docx", ".doc"},
`parse_resume` fails with the unsupported-format error.  The readers are
universally quantified, so the result is independent of the file's
contents or existence: no reader is consulted. -/
theorem C9_unsupported_extension
    (readPdf readDocx : List Char → Except ParseErr (List Char))
    (file_path file_extension job_description : List Char)
    (h1 : pyLower file_extension ≠ str ".pdf")
    (h2 : pyLower file_extension ≠ str ".docx")
    (h3 : pyLower file_extension ≠ str ".doc") :
    parse_resume readPdf readDocx file_path file_extension job_description =
      .error (.unsupportedFormat (pyLower file_extension)) := by
  unfold parse_resume
  simp [h1, h2, h3, Bind.bind, Except.bind]

/-- Witness for C9 at the extension ".txt" with concrete readers. -/
theorem C9_witness :
    parse_resume (fun _ => .ok (str "text")) (fun _ => .ok (str "text"))
      (str "/tmp/r.txt") (str ".txt") [] =
      .error (.unsupportedFormat (str ".txt")) :=
  C9_unsupported_extension _ _ _ _ _ (by decide) (by decide) (by decide)

/-! ## Claim C6: the character set kept by step 1 of `clean_text` -/

/-- C6 fails as stated: the emoji U+1F600 has code point at least U+00A0,
yet step 1 replaces it with a space (the source's character class stops
at U+FFFF). -/
theorem C6_counterexample :
    0xA0 ≤ (Char.ofNat 0x1F600).toNat ∧
    cleanStep1 [Char.ofNat 0x1F600] = [' '] ∧
    cleanStep1 [Char.ofNat 0x1F600] ≠ [Char.ofNat 0x1F600] := by
  decide

/-- C6 (amended): step 1 replaces with a single space exactly those
characters outside {tab, LF, CR, printable ASCII, U+00A0..U+FFFF}, and
every character of the input whose code point lies in U+00A0..U+FFFF is
preserved unchanged by that step. -/
theorem C6_amended :
    (∀ t : List Char, cleanStep1 t = t.map (fun c =>
        if c = '\t' ∨ c = '\n' ∨ c = '\x0d' ∨
            (0x20 ≤ c.toNat ∧ c.toNat ≤ 0x7E) ∨
            (0xA0 ≤ c.toNat ∧ c.toNat ≤ 0xFFFF) then c else ' ')) ∧
    (∀ (t : List Char) (i : Nat) (c : Char), t[i]? = some c →
        0xA0 ≤ c.toNat → c.toNat ≤ 0xFFFF → (cleanStep1 t)[i]? = some c) := by
  have hfun : ∀ c : Char, (if allowedChar c then c else ' ') =
      (if c = '\t' ∨ c = '\n' ∨ c = '\x0d' ∨
          (0x20 ≤ c.toNat ∧ c.toNat ≤ 0x7E) ∨
          (0xA0 ≤ c.toNat ∧ c.toNat ≤ 0xFFFF) then c else ' ') := by
    intro c
    have : allowedChar c = true ↔
        (c = '\t' ∨ c = '\n' ∨ c = '\x0d' ∨
          (0x20 ≤ c.toNat ∧ c.toNat ≤ 0x7E) ∨
          (0xA0 ≤ c.toNat ∧ c.toNat ≤ 0xFFFF)) := by
      unfold allowedChar
      constructor
      · intro h
        simp only [Bool.or_eq_true, decide_eq_true_eq] at h
        rcases h with ((((h | h) | h) | h) | h)
        · exact Or.inl (Char.ext (UInt32.ext h))
        · exact Or.inr (Or.inl (Char.ext (UInt32.ext h)))
        · exact Or.inr (Or.inr (Or.inl (Char.ext (UInt32.ext h))))
        · exact Or.inr (Or.inr (Or.inr (Or.inl (by simpa using h))))
        · exact Or.inr (Or.inr (Or.inr (Or.inr (by simpa using h))))
      · intro h
        simp only [Bool.or_eq_true, decide_eq_true_eq]
        rcases h with h | h | h | h | h
        · subst h; left; left; left; left; rfl
        · subst h; left; left; left; right; rfl
        · subst h; left; left; right; rfl
        · left; right; simpa using h
        · right; simpa using h
    by_cases hA : allowedChar c = true
    · rw [if_pos hA, if_pos (this.mp hA)]
    · rw [if_neg hA, if_neg]
      intro hp
      exact hA (this.mpr hp)
  constructor
  · intro t
    unfold cleanStep1
    exact List.map_congr_left (fun c _ => hfun c)
  · intro t i c hget hlo hhi
    unfold cleanStep1
    rw [List.getElem?_map, hget]
    have : allowedChar c = true := by
      unfold allowedChar
      simp only [Bool.or_eq_true, Bool.and_eq_true, decide_eq_true_eq]
      right
      exact ⟨by simpa using hlo, by simpa using hhi⟩
    simp [this]

/-- Witness for C6 (amended) at the concrete character 'é' (U+00E9). -/
theorem C6_witness :
    (['x', Char.ofNat 0xE9] : List Char)[1]? = some (Char.ofNat 0xE9) ∧
    0xA0 ≤ (Char.ofNat 0xE9).toNat ∧ (Char.ofNat 0xE9).toNat ≤ 0xFFFF ∧
    (cleanStep1 ['x', Char.ofNat 0xE9])[1]? = some (Char.ofNat 0xE9) := by
  refine ⟨by decide, by decide, by decide, ?_⟩
  exact C6_amended.2 ['x', Char.ofNat 0xE9] 1 (Char.ofNat 0xE9)
    (by decide) (by decide) (by decide)

/-! ## Claim C4: display casing of lowercase vocabulary entries -/

/-- C4 concerns a source bug: the guard on line 481,
`len(skill) <= 4 and skill.upper() == skill.upper()`, compares
`skill.upper()` with itself, so it holds for every skill of length at
most 4; the lowercase vocabulary entry "java" is therefore displayed
as "JAVA", while the claim (and the evident intent, `skill ==
skill.upper()`) gives the title-cased "Java". -/
theorem C4_failing_input :
    extract_skills (str "java") = [str "JAVA"] ∧
    displaySkill (str "java") = str "JAVA" ∧
    pyTitle (str "java") = str "Java" ∧
    (str "java") ∈ SKILLS_DB ∧ pyUpper (str "java") ≠ str "java" := by
  decide

/-! ## Claim C7: email-derived name fallback -/

/-- C7: on a text whose only name signal is the email address
"john.doe99@mail.com" (strategies 1, 3 and 4 all fail on it; the
entity-recognition capability is absent in the modeled configuration),
`extract_name` derives "John Doe" from the email address. -/
theorem C7_email_derived_name :
    extract_name (str "Email: john.doe99@mail.com") = str "John Doe" ∧
    nameStrategy1 (splitLines (pyStrip (str "Email: john.doe99@mail.com"))) = none ∧
    nameStrategy3 (splitLines (pyStrip (str "Email: john.doe99@mail.com"))) = none ∧
    nameStrategy4 (splitLines (pyStrip (str "Email: john.doe99@mail.com"))) = none ∧
    extract_email (str "Email: john.doe99@mail.com") = str "john.doe99@mail.com" ∧
    nameStrategy5 (str "Email: john.doe99@mail.com") = some (str "John Doe") := by
  refine ⟨?_, ?_, ?_, ?_, ?_, ?_⟩ <;> decide

/-! ## Claim C8: the stop set ends section collection -/

/-- C8: once inside the target section, any line containing a stop-set
keyword and shorter than 60 characters ends collection with that line
discarded (the accumulated content is returned unchanged, the line and
everything after it ignored); in particular the experience section of
"Experience\nDid X\nEducation\nDid Y" is exactly "Did X". -/
theorem C8_stop_set :
    (∀ (stopKws : List (List Char)) (line : List Char)
        (rest acc : List (List Char)) (ec : Nat),
        (stopKws.any (fun kw => containsSub kw (pyLower (pyStrip line)))) = true →
        (pyStrip line).length < 60 →
        sectionCollect stopKws (line :: rest) acc ec = acc) ∧
    extract_experience (str "Experience\nDid X\nEducation\nDid Y") = str "Did X" := by
  constructor
  · intro stopKws line rest acc ec h1 h2
    unfold sectionCollect
    simp [h1, h2]
  · decide

/-- Witness for C8: the stop line "Education" ends collection inside an
experience section, discarding itself and the rest. -/
theorem C8_witness :
    sectionCollect [str "education"] [str "Education", str "Did Y"]
      [str "Did X"] 0 = [str "Did X"] :=
  C8_stop_set.1 [str "education"] (str "Education") [str "Did Y"]
    [str "Did X"] 0 (by decide) (by decide)

/-! ## Claim C3: the phone pattern cascade -/

/-- The first element of a list of optional values that is present. -/
def firstSome {α : Type} : List (Option α) → Option α
  | [] => none
  | some a :: _ => some a
  | none :: rest => firstSome rest

/-- What one pattern of `extract_phone` contributes: the cleaned first
match when it exists and survives the 10-digit sanity check. -/
def tryPhonePattern (text : List Char) (p : RE) : Option (List Char) :=
  match findall p text with
  | [] => none
  | m :: _ =>
    let phone := pyStrip (collapseWs m)
    if 10 ≤ (phone.filter isDigitC).length then some phone else none

/-- The pattern loop equals the first-successful-pattern characterization. -/
theorem phoneGo_eq_firstSome (text : List Char) (ps : List RE) :
    phoneGo text ps =
      (firstSome (ps.map (tryPhonePattern text))).getD (str "Not Found") := by
  induction ps with
  | nil => rfl
  | cons p rest ih =>
    unfold phoneGo tryPhonePattern
    cases h : findall p text with
    | nil => simpa [h, firstSome] using ih
    | cons m ms =>
      by_cases hd : 10 ≤ ((pyStrip (collapseWs m)).filter isDigitC).length
      · simp [h, hd, firstSome]
      · simpa [h, hd, firstSome] using ih

/-- C3 is false as stated: on this input the first (most specific) pattern
has a match, its first match has only 9 digits, and yet the result is not
the sentinel — a later pattern supplies "9876543210". -/
theorem C3_counterexample :
    findall phoneRE1 (str "+1 2 345 6789 call 9876543210") =
      [str "+1 2 345 6789"] ∧
    ((pyStrip (collapseWs (str "+1 2 345 6789"))).filter isDigitC).length = 9 ∧
    extract_phone (str "+1 2 345 6789 call 9876543210") = str "9876543210" ∧
    extract_phone (str "+1 2 345 6789 call 9876543210") ≠ str "Not Found" := by
  refine ⟨?_, ?_, ?_, ?_⟩ <;> decide

/-- C3 (amended): `extract_phone` tries the five patterns in order and
returns the whitespace-collapsed, stripped first match of the first
pattern whose first match passes the 10-digit check; a pattern whose
first match fails the check does not end the search — later patterns are
still consulted — and only if every pattern fails is the sentinel
returned.  The boundary examples of the claim hold: "+1 (555) 867-5309"
is accepted verbatim and the bare "12345" yields the sentinel. -/
theorem C3_amended :
    (∀ text : List Char,
      extract_phone text =
        (firstSome (phonePatterns.map (tryPhonePattern text))).getD
          (str "Not Found")) ∧
    extract_phone (str "+1 (555) 867-5309") = str "+1 (555) 867-5309" ∧
    extract_phone (str "12345") = str "Not Found" := by
  refine ⟨fun text => phoneGo_eq_firstSome text phonePatterns, by decide, by decide⟩

/-! ## Claim C5: word-boundary matching for short skills -/

/-- Lemma: `l₁.isPrefixOf l₂` holds exactly when `l₂` extends `l₁`. -/
theorem isPrefixOf_iff (l₁ : List Char) : ∀ l₂ : List Char,
    l₁.isPrefixOf l₂ = true ↔ ∃ t, l₂ = l₁ ++ t := by
  induction l₁ with
  | nil => intro l₂; simp [List.isPrefixOf]
  | cons a as ih =>
    intro l₂
    cases l₂ with
    | nil => simp [List.isPrefixOf]
    | cons b bs =>
      simp only [List.isPrefixOf, Bool.and_eq_true, beq_iff_eq, ih]
      constructor
      · rintro ⟨rfl, t, rfl⟩
        exact ⟨t, rfl⟩
      · rintro ⟨t, ht⟩
        injection ht with h1 h2
        exact ⟨h1.symm ▸ rfl, t, h2⟩

/-- The needle occurs contiguously somewhere in the haystack. -/
def OccursAt (needle hay : List Char) : Prop :=
  ∃ pre post, hay = pre ++ needle ++ post

/-- Lemma: `containsSub` decides contiguous-substring occurrence. -/
theorem containsSub_iff (needle : List Char) : ∀ hay : List Char,
    containsSub needle hay = true ↔ OccursAt needle hay := by
  intro hay
  induction hay with
  | nil =>
    unfold containsSub OccursAt
    rw [isPrefixOf_iff]
    constructor
    · rintro ⟨t, ht⟩
      exact ⟨[], t, by simpa using ht⟩
    · rintro ⟨pre, post, h⟩
      rcases List.append_eq_nil.mp h.symm with ⟨hpn, hpost⟩
      rcases List.append_eq_nil.mp hpn with ⟨hpre, hn⟩
      exact ⟨[], by simp [hn]⟩
  | cons c rest ih =>
    unfold containsSub
    rw [Bool.or_eq_true, isPrefixOf_iff, ih]
    constructor
    · rintro (⟨t, ht⟩ | ⟨pre, post, h⟩)
      · exact ⟨[], t, by simpa using ht⟩
      · exact ⟨c :: pre, post, by simp [h]⟩
    · rintro ⟨pre, post, h⟩
      cases pre with
      | nil => exact Or.inl ⟨post, by simpa using h⟩
      | cons c' pre' =>
        injection h with h1 h2
        exact Or.inr ⟨pre', post, h2⟩

/-- The needle occurs with no ASCII letter immediately on either side
(the effect of the lookarounds `(?<![a-zA-Z])` and `(?![a-zA-Z])`). -/
def OccursIsolated (needle hay : List Char) : Prop :=
  ∃ pre post, hay = pre ++ needle ++ post ∧
    notLetterOpt pre.getLast? = true ∧ notLetterOpt post.head? = true

/-- The last element of `c :: pre`, falling back to `prev`, equals the
last element of `pre`, falling back to `c`. -/
theorem getLast?_cons_or (c : Char) (pre : List Char) (prev : Option Char) :
    ((c :: pre).getLast?).or prev = (pre.getLast?).or (some c) := by
  cases pre with
  | nil => simp
  | cons d ds =>
    rw [List.getLast?_cons_cons]
    cases h : (d :: ds).getLast? with
    | none => exact absurd (List.getLast?_eq_none_iff.mp h) (by simp)
    | some x => simp

/-- Lemma: `searchIsolated` decides isolated occurrence; `prev` stands for the
character immediately before the scanned suffix. -/
theorem searchIsolated_iff (needle : List Char) : ∀ (hay : List Char)
    (prev : Option Char),
    searchIsolated needle prev hay = true ↔
      ∃ pre post, hay = pre ++ needle ++ post ∧
        notLetterOpt ((pre.getLast?).or prev) = true ∧
        notLetterOpt post.head? = true := by
  intro hay
  induction hay with
  | nil =>
    intro prev
    unfold searchIsolated
    rw [Bool.or_eq_true]
    simp only [Bool.and_eq_true, isPrefixOf_iff]
    constructor
    · rintro (⟨⟨⟨t, ht⟩, hprev⟩, _⟩ | h)
      · refine ⟨[], [], ?_, by simpa using hprev, by simp [notLetterOpt]⟩
        have : needle = [] := by
          cases needle with
          | nil => rfl
          | cons a as => exact absurd ht (by simp)
        simp [this]
      · exact absurd h (by simp)
    · rintro ⟨pre, post, h, h1, h2⟩
      rcases List.append_eq_nil.mp h.symm with ⟨hpn, hpost⟩
      rcases List.append_eq_nil.mp hpn with ⟨hpre, hn⟩
      subst hpre hpost
      left
      refine ⟨⟨⟨[], by simp [hn]⟩, by simpa using h1⟩, by simp [notLetterOpt]⟩
  | cons c rest ih =>
    intro prev
    unfold searchIsolated
    rw [Bool.or_eq_true]
    constructor
    · intro h
      rcases h with h | h
      · simp only [Bool.and_eq_true, isPrefixOf_iff] at h
        obtain ⟨⟨⟨t, ht⟩, hprev⟩, hnext⟩ := h
        refine ⟨[], t, by simpa using ht, by simpa using hprev, ?_⟩
        rw [ht, List.drop_left] at hnext
        exact hnext
      · obtain ⟨pre, post, heq, h1, h2⟩ := (ih (some c)).mp h
        refine ⟨c :: pre, post, by simp [heq], ?_, h2⟩
        rw [getLast?_cons_or]
        exact h1
    · rintro ⟨pre, post, heq, h1, h2⟩
      cases pre with
      | nil =>
        left
        simp only [List.nil_append] at heq
        simp only [Bool.and_eq_true, isPrefixOf_iff]
        refine ⟨⟨⟨post, heq⟩, by simpa using h1⟩, ?_⟩
        rw [heq, List.drop_left]
        exact h2
      | cons c' pre' =>
        injection heq with hc hrest
        subst hc
        right
        refine (ih (some c)).mpr ⟨pre', post, hrest, ?_, h2⟩
        rw [getLast?_cons_or] at h1
        exact h1

/-- C5: for every text and every vocabulary entry, a skill of length at
most 3 is matched exactly at isolated occurrences (no ASCII letter
adjacent on either side) of its lowercased form in the lowercased text,
while a longer skill is matched by plain substring search; in particular
"javascript" yields neither "c" nor "r" (only "java" and "javascript"
themselves), and "I use Go daily" yields the skill "go". -/
theorem C5_short_skill_boundaries :
    (∀ (textLower skill : List Char), skill ∈ SKILLS_DB →
      (skill.length ≤ 3 →
        (skillHit skill textLower = true ↔
          OccursIsolated (pyLower skill) textLower)) ∧
      (¬ skill.length ≤ 3 →
        (skillHit skill textLower = true ↔
          OccursAt (pyLower skill) textLower))) ∧
    extract_skills (str "javascript") = [str "JAVA", str "Javascript"] ∧
    extract_skills (str "I use Go daily") = [str "GO"] := by
  refine ⟨?_, by decide, by decide⟩
  intro textLower skill _
  constructor
  · intro hlen
    unfold skillHit
    rw [if_pos hlen]
    rw [searchIsolated_iff]
    unfold OccursIsolated
    constructor
    · rintro ⟨pre, post, heq, h1, h2⟩
      exact ⟨pre, post, heq, by simpa using h1, h2⟩
    · rintro ⟨pre, post, heq, h1, h2⟩
      exact ⟨pre, post, heq, by simpa using h1, h2⟩
  · intro hlen
    unfold skillHit
    rw [if_neg hlen]
    exact containsSub_iff _ _

/-- Witness for C5: the skill "go" (length 2) in the lowercased text
"i use go daily" — the hit test is equivalent to an isolated occurrence,
and both sides hold. -/
theorem C5_witness :
    (str "go") ∈ SKILLS_DB ∧
    (skillHit (str "go") (str "i use go daily") = true ↔
      OccursIsolated (pyLower (str "go")) (str "i use go daily")) ∧
    skillHit (str "go") (str "i use go daily") = true :=
  ⟨by decide,
   (C5_short_skill_boundaries.1 (str "i use go daily") (str "go")
      (by decide)).1 (by decide),
   by decide⟩

/-! ## Claim C10: the skills list invariant -/

/-- Lemma: `List.contains` agrees with membership on `List (List Char)`. -/
theorem containsL_iff (l : List (List Char)) (a : List Char) :
    l.contains a = true ↔ a ∈ l := by
  simp [List.contains]

/-- Elements produced by the dedup loop come from its input. -/
theorem dedupeCIGo_subset :
    ∀ (l : List (List Char)) (seen : List (List Char)) (s : List Char),
      s ∈ dedupeCIGo seen l → s ∈ l := by
  intro l
  induction l with
  | nil => intro seen s h; exact absurd h (by simp [dedupeCIGo])
  | cons x xs ih =>
    intro seen s h
    unfold dedupeCIGo at h
    by_cases hc : List.contains seen (pyLower x) = true
    · rw [if_pos hc] at h
      exact List.mem_cons_of_mem x (ih _ s h)
    · rw [if_neg hc] at h
      rcases List.mem_cons.mp h with h | h
      · exact h ▸ List.mem_cons_self x xs
      · exact List.mem_cons_of_mem x (ih _ s h)

/-- No element surviving the dedup loop has a lowercased key in `seen`. -/
theorem dedupeCIGo_not_seen :
    ∀ (l : List (List Char)) (seen : List (List Char)) (s : List Char),
      s ∈ dedupeCIGo seen l → pyLower s ∉ seen := by
  intro l
  induction l with
  | nil => intro seen s h; exact absurd h (by simp [dedupeCIGo])
  | cons x xs ih =>
    intro seen s h
    unfold dedupeCIGo at h
    by_cases hc : List.contains seen (pyLower x) = true
    · rw [if_pos hc] at h
      exact ih _ s h
    · rw [if_neg hc] at h
      rcases List.mem_cons.mp h with h | h
      · subst h
        intro hmem
        exact hc ((containsL_iff _ _).mpr hmem)
      · intro hmem
        exact ih _ s h (List.mem_cons_of_mem _ hmem)

/-- The dedup loop yields pairwise-distinct lowercased keys. -/
theorem dedupeCIGo_pairwise :
    ∀ (l : List (List Char)) (seen : List (List Char)),
      (dedupeCIGo seen l).Pairwise (fun a b => pyLower a ≠ pyLower b) := by
  intro l
  induction l with
  | nil => intro seen; simp [dedupeCIGo]
  | cons x xs ih =>
    intro seen
    unfold dedupeCIGo
    by_cases hc : List.contains seen (pyLower x) = true
    · rw [if_pos hc]; exact ih _
    · rw [if_neg hc]
      refine List.pairwise_cons.mpr ⟨?_, ih _⟩
      intro b hb heq
      have := dedupeCIGo_not_seen xs (pyLower x :: seen) b hb
      exact this (heq ▸ List.mem_cons_self _ _)

/-- Lemma: `lexLe` is total. -/
theorem lexLe_total : ∀ a b : List Char, lexLe a b = true ∨ lexLe b a = true := by
  intro a
  induction a with
  | nil => intro b; left; rfl
  | cons x xs ih =>
    intro b
    cases b with
    | nil => right; rfl
    | cons y ys =>
      unfold lexLe
      rcases lt_trichotomy x y with h | h | h
      · left; simp [h]
      · subst h
        simp only [lt_irrefl, if_false]
        exact ih ys
      · right; simp [h, not_lt_of_gt h]

/-- Lemma: `lexLe` is transitive. -/
theorem lexLe_trans : ∀ a b c : List Char,
    lexLe a b = true → lexLe b c = true → lexLe a c = true := by
  intro a
  induction a with
  | nil => intro b c _ _; rfl
  | cons x xs ih =>
    intro b c hab hbc
    cases b with
    | nil => exact absurd hab (by simp [lexLe])
    | cons y ys =>
      cases c with
      | nil => exact absurd hbc (by simp [lexLe])
      | cons z zs =>
        unfold lexLe at hab hbc ⊢
        rcases lt_trichotomy x y with hxy | hxy | hxy
        · rcases lt_trichotomy y z with hyz | hyz | hyz
          · simp [lt_trans hxy hyz]
          · subst hyz; simp [hxy]
          · rw [if_neg (by exact not_lt_of_gt hyz), if_pos hyz] at hbc
            exact absurd hbc (by simp)
        · subst hxy
          rcases lt_trichotomy x z with hxz | hxz | hxz
          · simp [hxz]
          · subst hxz
            simp only [lt_irrefl, if_false] at hab hbc ⊢
            exact ih ys zs hab hbc
          · rw [if_neg (by exact not_lt_of_gt hxz), if_pos hxz] at hbc
            exact absurd hbc (by simp)
        · rw [if_neg (by exact not_lt_of_gt hxy), if_pos hxy] at hab
          exact absurd hab (by simp)

/-- Lemma: `lexLe` is antisymmetric. -/
theorem lexLe_antisymm : ∀ a b : List Char,
    lexLe a b = true → lexLe b a = true → a = b := by
  intro a
  induction a with
  | nil =>
    intro b _ hba
    cases b with
    | nil => rfl
    | cons y ys => exact absurd hba (by simp [lexLe])
  | cons x xs ih =>
    intro b hab hba
    cases b with
    | nil => exact absurd hab (by simp [lexLe])
    | cons y ys =>
      unfold lexLe at hab hba
      rcases lt_trichotomy x y with h | h | h
      · rw [if_neg (by exact not_lt_of_gt h), if_pos h] at hba
        exact absurd hba (by simp)
      · subst h
        simp only [lt_irrefl, if_false] at hab hba
        rw [ih ys hab hba]
      · rw [if_neg (by exact not_lt_of_gt h), if_pos h] at hab
        exact absurd hab (by simp)

/-- Two pairwise facts combine pointwise. -/
theorem pairwiseAnd {α : Type} {R S : α → α → Prop} :
    ∀ {l : List α}, l.Pairwise R → l.Pairwise S →
      l.Pairwise (fun a b => R a b ∧ S a b) := by
  intro l
  induction l with
  | nil => intro _ _; exact List.Pairwise.nil
  | cons x xs ih =>
    intro h1 h2
    rcases List.pairwise_cons.mp h1 with ⟨hx1, h1'⟩
    rcases List.pairwise_cons.mp h2 with ⟨hx2, h2'⟩
    exact List.pairwise_cons.mpr ⟨fun b hb => ⟨hx1 b hb, hx2 b hb⟩, ih h1' h2'⟩

set_option maxRecDepth 8000 in
/-- Every vocabulary entry round-trips through its display form:
lowercasing the displayed skill recovers the entry (checked entry by
entry over `SKILLS_DB`). -/
theorem displaySkill_lower : ∀ s ∈ SKILLS_DB, pyLower (displaySkill s) = s := by
  decide

/-- C10: for every input text, every entry of `extract_skills text`
lowercases to a vocabulary entry, no two entries agree up to case, and
the list is sorted in ascending lexicographic order and (being
duplicate-free) strictly increasing. -/
theorem C10_skills_list_invariant : ∀ text : List Char,
    (∀ s ∈ extract_skills text, pyLower s ∈ SKILLS_DB) ∧
    (extract_skills text).Pairwise (fun a b => pyLower a ≠ pyLower b) ∧
    (extract_skills text).Pairwise (fun a b => lexLe a b = true ∧ a ≠ b) := by
  intro text
  have he : extract_skills text =
      List.insertionSort (fun a b => lexLe a b = true)
        (dedupeCIGo [] (SKILLS_DB.filterMap (fun skill =>
          if skillHit skill (pyLower text) then some (displaySkill skill)
          else none))) := rfl
  have hfound : ∀ s ∈ SKILLS_DB.filterMap (fun skill =>
      if skillHit skill (pyLower text) then some (displaySkill skill)
      else none), pyLower s ∈ SKILLS_DB := by
    intro s hs
    rcases List.mem_filterMap.mp hs with ⟨skill, hskill, hf⟩
    by_cases h : skillHit skill (pyLower text) = true
    · rw [if_pos h] at hf
      injection hf with hf
      rw [← hf, displaySkill_lower skill hskill]
      exact hskill
    · rw [if_neg h] at hf
      exact absurd hf (by simp)
  have hperm := List.perm_insertionSort (fun a b => lexLe a b = true)
    (dedupeCIGo [] (SKILLS_DB.filterMap (fun skill =>
      if skillHit skill (pyLower text) then some (displaySkill skill)
      else none)))
  have hlowsort : (extract_skills text).Pairwise
      (fun a b => pyLower a ≠ pyLower b) := by
    rw [he]
    exact (hperm.pairwise_iff (fun {a b} h hq => h hq.symm)).mpr
      (dedupeCIGo_pairwise _ [])
  refine ⟨?_, hlowsort, ?_⟩
  · intro s hs
    rw [he] at hs
    exact hfound s (dedupeCIGo_subset _ [] s (hperm.mem_iff.mp hs))
  · letI : IsTotal (List Char) (fun a b => lexLe a b = true) := ⟨lexLe_total⟩
    letI : IsTrans (List Char) (fun a b => lexLe a b = true) := ⟨lexLe_trans⟩
    have hsorted : (extract_skills text).Pairwise
        (fun a b => lexLe a b = true) := by
      rw [he]
      exact List.sorted_insertionSort (fun a b => lexLe a b = true) _
    exact (pairwiseAnd hsorted hlowsort).imp
      (fun {a b} h => ⟨h.1, fun heq => h.2 (by rw [heq])⟩)

/-- Witness for C10: on "python and sql" the entry "Python" is reported
and lowercases back into the vocabulary. -/
theorem C10_witness :
    str "Python" ∈ extract_skills (str "python and sql") ∧
    pyLower (str "Python") ∈ SKILLS_DB :=
  ⟨by decide,
   (C10_skills_list_invariant (str "python and sql")).1 (str "Python")
     (by decide)⟩

/-! ## Claim C1: skill-match invariants -/

/-- Bounds for half-to-even rounding on `[0, 1000]`. -/
theorem pyRound_nonneg_le (x : ℚ) (h0 : 0 ≤ x) (h1 : x ≤ 1000) :
    0 ≤ pyRound x ∧ pyRound x ≤ 1000 := by
  have hf0 : (0 : ℤ) ≤ ⌊x⌋ := Int.floor_nonneg.mpr h0
  have hf1 : ⌊x⌋ ≤ 1000 := by
    have h := Int.floor_le_floor (α := ℚ) h1
    simpa using h
  have key : ¬ Int.fract x < 1/2 → ⌊x⌋ + 1 ≤ 1000 := by
    intro hge
    by_contra hcon
    have hfl : ⌊x⌋ = 1000 := by omega
    have hxe : Int.fract x = x - 1000 := by
      rw [Int.fract, hfl]
      norm_num
    have hle : Int.fract x ≤ 0 := by rw [hxe]; linarith
    exact hge (lt_of_le_of_lt hle (by norm_num))
  unfold pyRound
  split_ifs with hlt hgt hev
  · exact ⟨hf0, hf1⟩
  · exact ⟨by omega, key hlt⟩
  · exact ⟨hf0, hf1⟩
  · exact ⟨by omega, key hlt⟩

/-- Bounds for rounding to one decimal place on `[0, 100]`. -/
theorem round1_bounds (x : ℚ) (h0 : 0 ≤ x) (h1 : x ≤ 100) :
    0 ≤ round1 x ∧ round1 x ≤ 100 := by
  have h := pyRound_nonneg_le (x * 10) (by positivity) (by linarith)
  have hc0 : (0 : ℚ) ≤ (pyRound (x * 10) : ℚ) := by exact_mod_cast h.1
  have hc1 : (pyRound (x * 10) : ℚ) ≤ 1000 := by exact_mod_cast h.2
  unfold round1
  constructor
  · positivity
  · linarith

/-- The percentage produced by `calculate_skill_match` lies in `[0, 100]`. -/
theorem calculate_skill_match_pct_bounds
    (resume_skills : List (List Char)) (job_description : List Char) :
    0 ≤ (calculate_skill_match resume_skills job_description).1 ∧
    (calculate_skill_match resume_skills job_description).1 ≤ 100 := by
  unfold calculate_skill_match
  dsimp only
  split_ifs with h1 h2
  · norm_num
  · norm_num
  · set job_skills := extract_skills job_description with hjs
    set matched := job_skills.filter (fun s =>
      ((resume_skills.map pyLower).filter
        (fun t => (job_skills.map pyLower).contains t)).contains (pyLower s))
      with hm
    have hn : 0 < job_skills.length := by
      cases hjs' : job_skills with
      | nil => exact absurd (by simp [hjs']) h2
      | cons a as => simp [hjs']
    have hml : matched.length ≤ job_skills.length := List.length_filter_le _ _
    have hx0 : 0 ≤ (matched.length : ℚ) / (job_skills.length : ℚ) * 100 := by
      positivity
    have hx1 : (matched.length : ℚ) / (job_skills.length : ℚ) * 100 ≤ 100 := by
      have hq : (matched.length : ℚ) / (job_skills.length : ℚ) ≤ 1 := by
        rw [div_le_one (by exact_mod_cast hn)]
        exact_mod_cast hml
      linarith
    simpa using round1_bounds _ hx0 hx1

/-- Lemma: `calculate_skill_match` returns the zero result in each degenerate
case: empty job description, empty resume-skill list, or no skills
detected in the job description. -/
theorem calculate_skill_match_zero
    (resume_skills : List (List Char)) (job_description : List Char)
    (h : job_description.isEmpty = true ∨ resume_skills.isEmpty = true ∨
      (extract_skills job_description).isEmpty = true) :
    calculate_skill_match resume_skills job_description = (0, [], []) := by
  unfold calculate_skill_match
  by_cases h1 : (job_description.isEmpty || resume_skills.isEmpty) = true
  · rw [if_pos h1]
  · rw [if_neg h1]
    have h2 : (extract_skills job_description).isEmpty = true := by
      rcases h with h | h | h
      · exact absurd (by simp [h]) h1
      · exact absurd (by simp [h]) h1
      · exact h
    rw [if_pos h2]

/-- Any successful `parse_resume` result's skill-match record is built
from `calculate_skill_match` applied to the skills of some cleaned text,
with the total and matched-count fields derived from the two lists. -/
theorem parse_resume_ok
    (readPdf readDocx : List Char → Except ParseErr (List Char))
    (file_path file_extension job_description : List Char)
    (res : ParsedResume)
    (h : parse_resume readPdf readDocx file_path file_extension
          job_description = .ok res) :
    ∃ cleaned : List Char,
      res.skills = extract_skills cleaned ∧
      res.skill_match.percentage =
        (calculate_skill_match (extract_skills cleaned) job_description).1 ∧
      res.skill_match.matched_skills =
        (calculate_skill_match (extract_skills cleaned) job_description).2.1 ∧
      res.skill_match.missing_skills =
        (calculate_skill_match (extract_skills cleaned) job_description).2.2 ∧
      res.skill_match.total_jd_skills =
        res.skill_match.matched_skills.length +
          res.skill_match.missing_skills.length ∧
      res.skill_match.matched_count = res.skill_match.matched_skills.length := by
  unfold parse_resume at h
  by_cases h1 : pyLower file_extension = str ".pdf"
  · rw [if_pos h1] at h
    cases hr : readPdf file_path with
    | error e => rw [hr] at h; exact absurd h (by simp [Bind.bind, Except.bind])
    | ok raw =>
      rw [hr] at h
      simp only [Bind.bind, Except.bind] at h
      by_cases h2 : (pyStrip raw).isEmpty = true
      · rw [if_pos h2] at h
        exact absurd h (by simp)
      · rw [if_neg h2] at h
        obtain rfl := (Except.ok.inj h).symm
        exact ⟨clean_text raw, rfl, rfl, rfl, rfl, rfl, rfl⟩
  · rw [if_neg h1] at h
    by_cases h1' : (pyLower file_extension = str ".docx" ||
        pyLower file_extension = str ".doc") = true
    · rw [if_pos h1'] at h
      cases hr : readDocx file_path with
      | error e => rw [hr] at h; exact absurd h (by simp [Bind.bind, Except.bind])
      | ok raw =>
        rw [hr] at h
        simp only [Bind.bind, Except.bind] at h
        by_cases h2 : (pyStrip raw).isEmpty = true
        · rw [if_pos h2] at h
          exact absurd h (by simp)
        · rw [if_neg h2] at h
          obtain rfl := (Except.ok.inj h).symm
          exact ⟨clean_text raw, rfl, rfl, rfl, rfl, rfl, rfl⟩
    · rw [if_neg h1'] at h
      exact absurd h (by simp [Bind.bind, Except.bind])

/-- C1: the percentage of `calculate_skill_match` lies in `[0, 100]` and
the degenerate cases give the zero result; for every successfully
assembled `parse_resume` record, `total_jd_skills` equals
`matched_count + length of missing_skills`, `matched_count` is the
length of `matched_skills`, the percentage lies in `[0, 100]`, and the
degenerate cases give a zero percentage and empty lists. -/
theorem C1_skill_match_invariants :
    (∀ (resume_skills : List (List Char)) (job_description : List Char),
      0 ≤ (calculate_skill_match resume_skills job_description).1 ∧
      (calculate_skill_match resume_skills job_description).1 ≤ 100 ∧
      ((job_description.isEmpty = true ∨ resume_skills.isEmpty = true ∨
        (extract_skills job_description).isEmpty = true) →
        calculate_skill_match resume_skills job_description = (0, [], []))) ∧
    (∀ (readPdf readDocx : List Char → Except ParseErr (List Char))
       (file_path file_extension job_description : List Char)
       (res : ParsedResume),
      parse_resume readPdf readDocx file_path file_extension
          job_description = .ok res →
      res.skill_match.total_jd_skills =
        res.skill_match.matched_count +
          res.skill_match.missing_skills.length ∧
      res.skill_match.matched_count =
        res.skill_match.matched_skills.length ∧
      0 ≤ res.skill_match.percentage ∧
      res.skill_match.percentage ≤ 100 ∧
      ((job_description.isEmpty = true ∨ res.skills.isEmpty = true ∨
        (extract_skills job_description).isEmpty = true) →
        res.skill_match.percentage = 0 ∧
        res.skill_match.matched_skills = [] ∧
        res.skill_match.missing_skills = [])) := by
  constructor
  · intro resume_skills job_description
    rcases calculate_skill_match_pct_bounds resume_skills job_description
      with ⟨hb0, hb1⟩
    exact ⟨hb0, hb1, calculate_skill_match_zero resume_skills job_description⟩
  · intro readPdf readDocx file_path file_extension job_description res h
    obtain ⟨cleaned, hsk, hpct, hmat, hmis, htot, hcnt⟩ :=
      parse_resume_ok readPdf readDocx file_path file_extension
        job_description res h
    rcases calculate_skill_match_pct_bounds (extract_skills cleaned)
      job_description with ⟨hb0, hb1⟩
    refine ⟨by rw [htot, hcnt], hcnt, by rw [hpct]; exact hb0,
      by rw [hpct]; exact hb1, ?_⟩
    intro hz
    have hz' : job_description.isEmpty = true ∨
        (extract_skills cleaned).isEmpty = true ∨
        (extract_skills job_description).isEmpty = true := by
      rcases hz with hz | hz | hz
      · exact Or.inl hz
      · exact Or.inr (Or.inl (by rw [← hsk]; exact hz))
      · exact Or.inr (Or.inr hz)
    have h0 := calculate_skill_match_zero (extract_skills cleaned)
      job_description hz'
    refine ⟨?_, ?_, ?_⟩
    · rw [hpct, h0]
    · rw [hmat, h0]
    · rw [hmis, h0]

/-- Witness for C1: concrete bounds from the first part, and the record
invariant on a concrete successful parse. -/
theorem C1_witness :
    (0 ≤ (calculate_skill_match [str "Python"] (str "need python")).1 ∧
     (calculate_skill_match [str "Python"] (str "need python")).1 ≤ 100) ∧
    (match parse_resume (fun _ => .ok (str "a python developer"))
        (fun _ => .ok (str "a python developer")) (str "/tmp/r.pdf")
        (str ".pdf") (str "python") with
     | .ok res => res.skill_match.total_jd_skills =
         res.skill_match.matched_count +
           res.skill_match.missing_skills.length ∧
         0 ≤ res.skill_match.percentage ∧ res.skill_match.percentage ≤ 100
     | .error _ => False) := by
  constructor
  · have h := C1_skill_match_invariants.1 [str "Python"] (str "need python")
    exact ⟨h.1, h.2.1⟩
  · have hOk : (parse_resume (fun _ => .ok (str "a python developer"))
        (fun _ => .ok (str "a python developer")) (str "/tmp/r.pdf")
        (str ".pdf") (str "python")).toOption.isSome = true := by decide
    cases hE : parse_resume (fun _ => .ok (str "a python developer"))
        (fun _ => .ok (str "a python developer")) (str "/tmp/r.pdf")
        (str ".pdf") (str "python") with
    | error e => rw [hE] at hOk; simp [Except.toOption] at hOk
    | ok res =>
      have h := C1_skill_match_invariants.2 _ _ _ _ _ res hE
      exact ⟨h.1, h.2.2.1, h.2.2.2.1⟩

/-! ## Claim C2: idempotence of `clean_text`

The proof has two halves: (i) the characters of any `clean_text` output
are in the kept character set and contain no CR, and (ii) the output's
line structure (stripped lines, no two consecutive blank lines, no
leading/trailing blank line) makes every stage of a second pass the
identity. -/

/-- Characters surviving step 1 are all in the kept set. -/
theorem mem_cleanStep1 {c : Char} {l : List Char} (h : c ∈ cleanStep1 l) :
    allowedChar c = true := by
  unfold cleanStep1 at h
  rcases List.mem_map.mp h with ⟨d, _, hd⟩
  by_cases ha : allowedChar d = true
  · rw [if_pos ha] at hd
    exact hd ▸ ha
  · rw [if_neg ha] at hd
    rw [← hd]
    decide

/-- CRLF replacement only keeps input characters or introduces LF. -/
theorem mem_replaceCRLF : ∀ (l : List Char) {c : Char},
    c ∈ replaceCRLF l → c ∈ l ∨ c = '\n'
  | [], c, h => absurd h (by simp [replaceCRLF])
  | [d], c, h => Or.inl (by simpa [replaceCRLF] using h)
  | d :: e :: rest, c, h => by
    unfold replaceCRLF at h
    by_cases hc : (d = '\x0d' && e = '\n') = true
    · rw [if_pos hc] at h
      rcases List.mem_cons.mp h with h | h
      · exact Or.inr h
      · rcases mem_replaceCRLF rest h with h | h
        · exact Or.inl (by simp [h])
        · exact Or.inr h
    · rw [if_neg hc] at h
      rcases List.mem_cons.mp h with h | h
      · exact Or.inl (by simp [h])
      · rcases mem_replaceCRLF (e :: rest) h with h | h
        · exact Or.inl (List.mem_cons_of_mem _ h)
        · exact Or.inr h

/-- CR replacement only keeps input characters or introduces LF. -/
theorem mem_replaceCR {c : Char} {l : List Char} (h : c ∈ replaceCR l) :
    c ∈ l ∨ c = '\n' := by
  unfold replaceCR at h
  rcases List.mem_map.mp h with ⟨d, hd, hc⟩
  by_cases h13 : d = '\x0d'
  · rw [if_pos h13] at hc
    exact Or.inr hc.symm
  · rw [if_neg h13] at hc
    exact Or.inl (hc ▸ hd)

/-- After CR replacement no CR remains. -/
theorem replaceCR_no_cr {c : Char} {l : List Char} (h : c ∈ replaceCR l) :
    c ≠ '\x0d' := by
  unfold replaceCR at h
  rcases List.mem_map.mp h with ⟨d, _, hc⟩
  by_cases h13 : d = '\x0d'
  · rw [if_pos h13] at hc
    rw [← hc]
    decide
  · rw [if_neg h13] at hc
    exact hc ▸ h13

/-- Newline-capping only drops characters. -/
theorem mem_capNL : ∀ (l : List Char) (n : Nat) {c : Char},
    c ∈ capNL l n → c ∈ l
  | [], _, c, h => absurd h (by simp [capNL])
  | d :: rest, n, c, h => by
    unfold capNL at h
    by_cases hd : d = '\n'
    · rw [if_pos hd] at h
      by_cases hn : 2 ≤ n
      · rw [if_pos hn] at h
        exact List.mem_cons_of_mem _ (mem_capNL rest n h)
      · rw [if_neg hn] at h
        rcases List.mem_cons.mp h with h | h
        · rw [h, hd]
          exact List.mem_cons_self _ _
        · exact List.mem_cons_of_mem _ (mem_capNL rest (n + 1) h)
    · rw [if_neg hd] at h
      rcases List.mem_cons.mp h with h | h
      · exact h ▸ List.mem_cons_self _ _
      · exact List.mem_cons_of_mem _ (mem_capNL rest 0 h)

/-- Lemma: `splitLines` never returns the empty list of lines. -/
theorem splitLines_ne_nil : ∀ l : List Char, splitLines l ≠ []
  | [] => by simp [splitLines]
  | c :: rest => by
    unfold splitLines
    by_cases h : c = '\n'
    · simp [h]
    · rw [if_neg h]
      cases hsl : splitLines rest with
      | nil => simp
      | cons a as => simp

/-- Characters of any line of `splitLines l` come from `l` and are not
newlines. -/
theorem mem_splitLines : ∀ (l : List Char) (line : List Char),
    line ∈ splitLines l → ∀ {c : Char}, c ∈ line → c ∈ l ∧ c ≠ '\n'
  | [], line, hl, c, hc => by
    simp [splitLines] at hl
    subst hl
    exact absurd hc (by simp)
  | d :: rest, line, hl, c, hc => by
    unfold splitLines at hl
    by_cases hd : d = '\n'
    · rw [if_pos hd] at hl
      rcases List.mem_cons.mp hl with hl | hl
      · subst hl
        exact absurd hc (by simp)
      · have := mem_splitLines rest line hl hc
        exact ⟨List.mem_cons_of_mem _ this.1, this.2⟩
    · rw [if_neg hd] at hl
      cases hsl : splitLines rest with
      | nil => exact absurd hsl (splitLines_ne_nil rest)
      | cons a as =>
        rw [hsl] at hl
        rcases List.mem_cons.mp hl with hl | hl
        · subst hl
          rcases List.mem_cons.mp hc with hc | hc
          · subst hc
            exact ⟨List.mem_cons_self _ _, hd⟩
          · have := mem_splitLines rest a (hsl ▸ List.mem_cons_self _ _) hc
            exact ⟨List.mem_cons_of_mem _ this.1, this.2⟩
        · have := mem_splitLines rest line (hsl ▸ List.mem_cons_of_mem _ hl) hc
          exact ⟨List.mem_cons_of_mem _ this.1, this.2⟩

/-- Stripping only drops characters. -/
theorem mem_pyStrip {c : Char} {l : List Char} (h : c ∈ pyStrip l) : c ∈ l := by
  unfold pyStrip at h
  have h1 : c ∈ (l.dropWhile pyIsSpace).reverse.dropWhile pyIsSpace :=
    List.mem_reverse.mp h
  have h2 : c ∈ (l.dropWhile pyIsSpace).reverse :=
    (List.dropWhile_suffix pyIsSpace).subset h1
  have h3 : c ∈ l.dropWhile pyIsSpace := List.mem_reverse.mp h2
  exact (List.dropWhile_suffix pyIsSpace).subset h3

/-- Blank-line deduplication only drops lines. -/
theorem mem_dedupeBlank : ∀ (M : List (List Char)) (b : Bool) {x : List Char},
    x ∈ dedupeBlank b M → x ∈ M
  | [], b, x, h => absurd h (by simp [dedupeBlank])
  | l :: ls, b, x, h => by
    unfold dedupeBlank at h
    by_cases he : l.isEmpty = true
    · rw [if_pos he] at h
      by_cases hb : b = true
      · rw [if_pos hb] at h
        exact List.mem_cons_of_mem _ (mem_dedupeBlank ls true h)
      · rw [if_neg hb] at h
        rcases List.mem_cons.mp h with h | h
        · rw [h, List.isEmpty_iff.mp he]
          exact List.mem_cons_self _ _
        · exact List.mem_cons_of_mem _ (mem_dedupeBlank ls true h)
    · rw [if_neg he] at h
      rcases List.mem_cons.mp h with h | h
      · exact h ▸ List.mem_cons_self _ _
      · exact List.mem_cons_of_mem _ (mem_dedupeBlank ls false h)

/-- Characters of a join are newlines or come from some line. -/
theorem mem_joinNL : ∀ (M : List (List Char)) {c : Char},
    c ∈ joinNL M → c = '\n' ∨ ∃ l ∈ M, c ∈ l
  | [], c, h => absurd h (by simp [joinNL])
  | [l], c, h => Or.inr ⟨l, by simp, by simpa [joinNL] using h⟩
  | l :: m :: rest, c, h => by
    have h' : c ∈ l ++ '\n' :: joinNL (m :: rest) := h
    rcases List.mem_append.mp h' with h1 | h1
    · exact Or.inr ⟨l, List.mem_cons_self _ _, h1⟩
    · rcases List.mem_cons.mp h1 with h2 | h2
      · exact Or.inl h2
      · rcases mem_joinNL (m :: rest) h2 with h3 | ⟨l', hl', hc'⟩
        · exact Or.inl h3
        · exact Or.inr ⟨l', List.mem_cons_of_mem _ hl', hc'⟩

/-- Step 1 is the identity on texts of kept characters. -/
theorem cleanStep1_id {l : List Char} (h : ∀ c ∈ l, allowedChar c = true) :
    cleanStep1 l = l := by
  unfold cleanStep1
  calc l.map (fun c => if allowedChar c then c else ' ')
      = l.map id := List.map_congr_left (fun c hc => by rw [if_pos (h c hc)]; rfl)
    _ = l := List.map_id l

/-- CRLF replacement is the identity on CR-free texts. -/
theorem replaceCRLF_id : ∀ l : List Char, (∀ c ∈ l, c ≠ '\x0d') →
    replaceCRLF l = l
  | [], _ => rfl
  | [c], _ => rfl
  | c :: d :: rest, h => by
    have hc : c ≠ '\x0d' := h c (List.mem_cons_self _ _)
    unfold replaceCRLF
    rw [if_neg (by simp [hc])]
    rw [replaceCRLF_id (d :: rest) (fun e he => h e (List.mem_cons_of_mem _ he))]

/-- CR replacement is the identity on CR-free texts. -/
theorem replaceCR_id {l : List Char} (h : ∀ c ∈ l, c ≠ '\x0d') :
    replaceCR l = l := by
  unfold replaceCR
  calc l.map (fun c => if c = '\x0d' then '\n' else c)
      = l.map id := List.map_congr_left (fun c hc => by rw [if_neg (h c hc)]; rfl)
    _ = l := List.map_id l

/-- Every character of a `clean_text` output is in the kept set and is
not a CR. -/
theorem clean_text_chars {t : List Char} :
    ∀ c ∈ clean_text t, allowedChar c = true ∧ c ≠ '\x0d' := by
  intro c hc
  have hc' : c ∈ pyStrip (joinNL (dedupeBlank false
      ((splitLines (capNL (replaceCR (replaceCRLF (cleanStep1 t))) 0)).map
        pyStrip))) := hc
  have h1 := mem_pyStrip hc'
  rcases mem_joinNL _ h1 with h | ⟨line, hline, hcl⟩
  · subst h
    exact ⟨by decide, by decide⟩
  · have hline' := mem_dedupeBlank _ _ hline
    rcases List.mem_map.mp hline' with ⟨line0, hline0, rfl⟩
    have hc0 := mem_pyStrip hcl
    have hsl := mem_splitLines _ line0 hline0 hc0
    have h2 := mem_capNL _ _ hsl.1
    have hnotcr := replaceCR_no_cr h2
    rcases mem_replaceCR h2 with h3 | h3
    · rcases mem_replaceCRLF _ h3 with h4 | h4
      · exact ⟨mem_cleanStep1 h4, hnotcr⟩
      · exact ⟨h4 ▸ (by decide), hnotcr⟩
    · exact ⟨h3 ▸ (by decide), hnotcr⟩

/-- The head of a `dropWhile` result fails the predicate. -/
theorem dropWhile_head_not {α : Type} {p : α → Bool} : ∀ (l : List α) {c : α},
    (l.dropWhile p).head? = some c → p c = false
  | [], c, h => by simp [List.dropWhile] at h
  | d :: rest, c, h => by
    rw [List.dropWhile_cons] at h
    by_cases hd : p d = true
    · rw [if_pos hd] at h
      exact dropWhile_head_not rest h
    · rw [if_neg hd] at h
      simp only [List.head?_cons, Option.some.injEq] at h
      rw [← h]
      exact Bool.not_eq_true _ ▸ (by simpa using hd)

/-- Lemma: `dropWhile` is the identity when the head fails the predicate. -/
theorem dropWhile_of_head {α : Type} {p : α → Bool} {l : List α}
    (h : ∀ c, l.head? = some c → p c = false) : l.dropWhile p = l := by
  cases l with
  | nil => rfl
  | cons c rest =>
    rw [List.dropWhile_cons, if_neg]
    simp [h c rfl]

/-- Lemma: `pyStrip` is the identity on lists whose first and last characters
are not whitespace. -/
theorem pyStrip_eq_self {l : List Char}
    (h1 : ∀ c, l.head? = some c → pyIsSpace c = false)
    (h2 : ∀ c, l.getLast? = some c → pyIsSpace c = false) :
    pyStrip l = l := by
  unfold pyStrip
  rw [dropWhile_of_head h1]
  rw [dropWhile_of_head (fun c hc => h2 c (by rwa [List.head?_reverse] at hc))]
  exact List.reverse_reverse l

/-- A nonempty suffix has the same last element. -/
theorem getLast?_of_suffix {α : Type} {x m : List α} (h : x <:+ m) (hx : x ≠ []) :
    x.getLast? = m.getLast? := by
  obtain ⟨t, rfl⟩ := h
  rw [List.getLast?_append]
  cases hg : x.getLast? with
  | none => exact absurd (List.getLast?_eq_none_iff.mp hg) hx
  | some a => rfl

/-- The first character of a stripped list is not whitespace. -/
theorem pyStrip_head {l : List Char} : ∀ c : Char,
    (pyStrip l).head? = some c → pyIsSpace c = false := by
  intro c h
  unfold pyStrip at h
  rw [List.head?_reverse] at h
  have hW : (l.dropWhile pyIsSpace).reverse.dropWhile pyIsSpace ≠ [] := by
    intro he
    rw [he] at h
    simp at h
  have hsuf := List.dropWhile_suffix (l := (l.dropWhile pyIsSpace).reverse)
    (p := pyIsSpace)
  rw [getLast?_of_suffix hsuf hW, List.getLast?_reverse] at h
  exact dropWhile_head_not l h

/-- The last character of a stripped list is not whitespace. -/
theorem pyStrip_last {l : List Char} : ∀ c : Char,
    (pyStrip l).getLast? = some c → pyIsSpace c = false := by
  intro c h
  unfold pyStrip at h
  rw [List.getLast?_reverse] at h
  exact dropWhile_head_not _ h

/-- Stripping is idempotent. -/
theorem pyStrip_idem (l : List Char) : pyStrip (pyStrip l) = pyStrip l :=
  pyStrip_eq_self pyStrip_head pyStrip_last

/-- After skipping a run of blank lines (`prevBlank = true`), the head of
the deduplicated list is never a blank line. -/
theorem dedupeBlank_headNotNil : ∀ M : List (List Char),
    (dedupeBlank true M).head? ≠ some []
  | [] => by simp [dedupeBlank]
  | l :: ls => by
    unfold dedupeBlank
    by_cases he : l.isEmpty = true
    · rw [if_pos he, if_pos rfl]
      exact dedupeBlank_headNotNil ls
    · rw [if_neg he]
      simp only [List.head?_cons, ne_eq, Option.some.injEq]
      intro hl
      exact he (by simp [hl])

/-- The deduplicated list never has two consecutive blank lines. -/
theorem dedupeBlank_chain : ∀ (M : List (List Char)) (b : Bool),
    (dedupeBlank b M).Chain' (fun a b => a = [] → b ≠ [])
  | [], _ => by simp [dedupeBlank]
  | l :: ls, b => by
    unfold dedupeBlank
    by_cases he : l.isEmpty = true
    · by_cases hb : b = true
      · rw [if_pos he, if_pos hb]
        exact dedupeBlank_chain ls true
      · rw [if_pos he, if_neg hb]
        rw [List.chain'_cons']
        refine ⟨?_, dedupeBlank_chain ls true⟩
        intro y hy _ hy0
        exact dedupeBlank_headNotNil ls (by rw [hy]; rw [hy0])
    · rw [if_neg he]
      rw [List.chain'_cons']
      refine ⟨?_, dedupeBlank_chain ls false⟩
      intro y _ hl
      exact absurd hl (by intro h0; exact he (by simp [h0]))

/-- Deduplication is the identity on a list with no two consecutive
blank lines (and, when entered with `prevBlank = true`, whose head is
not blank). -/
theorem dedupeBlank_id : ∀ (M : List (List Char)) (b : Bool),
    M.Chain' (fun a b => a = [] → b ≠ []) →
    (b = true → M.head? ≠ some []) →
    dedupeBlank b M = M
  | [], _, _, _ => by simp [dedupeBlank]
  | l :: ls, b, hch, hb => by
    unfold dedupeBlank
    by_cases he : l.isEmpty = true
    · have hl : l = [] := List.isEmpty_iff.mp he
      by_cases hbt : b = true
      · exact absurd (show (l :: ls).head? = some [] by rw [hl]; rfl) (hb hbt)
      · rw [if_pos he, if_neg hbt]
        have hnext : ls.head? ≠ some [] := by
          cases ls with
          | nil => simp
          | cons m ms =>
            have hrel := (List.chain'_cons.mp hch).1
            simp only [List.head?_cons, ne_eq, Option.some.injEq]
            exact hrel hl
        rw [dedupeBlank_id ls true hch.tail (fun _ => hnext), hl]
    · rw [if_neg he]
      rw [dedupeBlank_id ls false hch.tail (fun h => absurd h (by simp))]

/-- Lemma: `splitLines` of a newline-free text is that text as a single line. -/
theorem splitLines_nlfree : ∀ l : List Char, (∀ c ∈ l, c ≠ '\n') →
    splitLines l = [l]
  | [], _ => rfl
  | c :: rest, h => by
    unfold splitLines
    rw [if_neg (h c (List.mem_cons_self _ _))]
    rw [splitLines_nlfree rest (fun d hd => h d (List.mem_cons_of_mem _ hd))]

/-- Splitting after a newline-free prefix and an explicit newline. -/
theorem splitLines_append_nl : ∀ (w v : List Char), (∀ c ∈ w, c ≠ '\n') →
    splitLines (w ++ '\n' :: v) = w :: splitLines v
  | [], v, _ => by simp [splitLines]
  | c :: w', v, h => by
    have hc : c ≠ '\n' := h c (List.mem_cons_self _ _)
    have ih := splitLines_append_nl w' v
      (fun d hd => h d (List.mem_cons_of_mem _ hd))
    show splitLines (c :: (w' ++ '\n' :: v)) = _
    simp only [splitLines]
    rw [if_neg hc, ih]

/-- Lemma: `joinNL` on a list with a nonempty tail. -/
theorem joinNL_cons {l : List Char} {M : List (List Char)} (h : M ≠ []) :
    joinNL (l :: M) = l ++ '\n' :: joinNL M := by
  cases M with
  | nil => exact absurd rfl h
  | cons m ms => rfl

/-- Joining the split lines recovers the text. -/
theorem joinNL_splitLines : ∀ l : List Char, joinNL (splitLines l) = l
  | [] => rfl
  | c :: rest => by
    unfold splitLines
    by_cases hc : c = '\n'
    · rw [if_pos hc, joinNL_cons (splitLines_ne_nil rest),
        joinNL_splitLines rest, hc]
      rfl
    · rw [if_neg hc]
      cases hsl : splitLines rest with
      | nil => exact absurd hsl (splitLines_ne_nil rest)
      | cons a as =>
        have ih := joinNL_splitLines rest
        rw [hsl] at ih
        cases as with
        | nil =>
          simp only [joinNL] at ih ⊢
          rw [ih]
        | cons b bs =>
          rw [joinNL_cons (by simp)] at ih ⊢
          rw [List.cons_append, ih]

/-- Splitting a join of newline-free lines recovers the lines. -/
theorem splitLines_joinNL : ∀ M : List (List Char), M ≠ [] →
    (∀ l ∈ M, ∀ c ∈ l, c ≠ '\n') → splitLines (joinNL M) = M
  | [], h, _ => absurd rfl h
  | [l], _, hnl => by
    show splitLines (joinNL [l]) = [l]
    have hj : joinNL [l] = l := rfl
    rw [hj, splitLines_nlfree l (hnl l (by simp))]
  | l :: m :: rest, _, hnl => by
    rw [joinNL_cons (by simp)]
    rw [splitLines_append_nl l (joinNL (m :: rest)) (hnl l (by simp))]
    rw [splitLines_joinNL (m :: rest) (by simp)
      (fun l' hl' => hnl l' (List.mem_cons_of_mem _ hl'))]

/-- Unfolding equation of `capNL` at a non-newline character. -/
theorem capNL_cons_not_nl {c : Char} (hc : c ≠ '\n') (rest : List Char)
    (n : Nat) : capNL (c :: rest) n = c :: capNL rest 0 := by
  simp only [capNL]
  rw [if_neg hc]

/-- Unfolding equation of `capNL` at a newline while the run is short. -/
theorem capNL_nl_small (rest : List Char) {n : Nat} (hn : ¬ 2 ≤ n) :
    capNL ('\n' :: rest) n = '\n' :: capNL rest (n + 1) := by
  simp only [capNL, if_true]
  rw [if_neg hn]

/-- Newline-capping walks over a newline-free prefix, resetting the run
counter unless the prefix is empty. -/
theorem capNL_append_nlfree : ∀ (w v : List Char) (n : Nat),
    (∀ c ∈ w, c ≠ '\n') →
    capNL (w ++ v) n = w ++ capNL v (if w.isEmpty then n else 0)
  | [], v, n, _ => by simp
  | c :: w', v, n, h => by
    have hc : c ≠ '\n' := h c (List.mem_cons_self _ _)
    show capNL (c :: (w' ++ v)) n = _
    rw [capNL_cons_not_nl hc]
    rw [capNL_append_nlfree w' v 0 (fun d hd => h d (List.mem_cons_of_mem _ hd))]
    cases hw : w'.isEmpty <;> simp [hw]

/-- Newline-capping is the identity on the join of newline-free lines
with no two consecutive blank lines, entered with a run counter of at
most 1 (or exactly 2 with a nonblank first line). -/
theorem capNL_joinNL : ∀ (M : List (List Char)) (n : Nat),
    (∀ l ∈ M, ∀ c ∈ l, c ≠ '\n') →
    M.Chain' (fun a b => a = [] → b ≠ []) →
    (n ≤ 1 ∨ (n = 2 ∧ M.head? ≠ some [])) →
    capNL (joinNL M) n = joinNL M
  | [], n, _, _, _ => by simp [joinNL, capNL]
  | [l], n, hnl, _, hn => by
    show capNL (joinNL [l]) n = joinNL [l]
    have hj : joinNL [l] = l := rfl
    rw [hj]
    cases l with
    | nil => simp [capNL]
    | cons c l' =>
      have h := capNL_append_nlfree (c :: l') [] n (hnl _ (by simp))
      simpa [capNL] using h
  | [] :: m :: rest, n, hnl, hch, hn => by
    rw [joinNL_cons (by simp)]
    have htail : ∀ l' ∈ m :: rest, ∀ c ∈ l', c ≠ '\n' :=
      fun l' hl' => hnl l' (List.mem_cons_of_mem _ hl')
    have hn1 : n ≤ 1 := by
      rcases hn with h | ⟨_, hh⟩
      · exact h
      · exact absurd rfl hh
    simp only [List.nil_append]
    rw [capNL_nl_small _ (by omega)]
    have hm : m ≠ [] := (List.chain'_cons.mp hch).1 rfl
    have harg : n + 1 ≤ 1 ∨ (n + 1 = 2 ∧ (m :: rest).head? ≠ some []) := by
      by_cases h0 : n = 0
      · left; omega
      · right
        refine ⟨by omega, ?_⟩
        simp only [List.head?_cons, ne_eq, Option.some.injEq]
        exact hm
    rw [capNL_joinNL (m :: rest) (n + 1) htail hch.tail harg]
  | (c :: l') :: m :: rest, n, hnl, hch, hn => by
    rw [joinNL_cons (by simp)]
    have htail : ∀ l' ∈ m :: rest, ∀ c ∈ l', c ≠ '\n' :=
      fun l' hl' => hnl l' (List.mem_cons_of_mem _ hl')
    rw [capNL_append_nlfree (c :: l') ('\n' :: joinNL (m :: rest)) n
      (hnl (c :: l') (List.mem_cons_self _ _))]
    have he : (c :: l').isEmpty = false := rfl
    rw [he]
    simp only [Bool.false_eq_true, if_false]
    congr 1
    rw [capNL_nl_small _ (by omega)]
    rw [capNL_joinNL (m :: rest) 1 htail hch.tail (Or.inl (by omega))]

/-- Leading blank lines of the line list. -/
def trimFront (M : List (List Char)) : List (List Char) :=
  M.dropWhile List.isEmpty

/-- Trailing blank lines of the line list. -/
def trimBack (M : List (List Char)) : List (List Char) :=
  (M.reverse.dropWhile List.isEmpty).reverse

/-- Reversal preserves emptiness. -/
theorem isEmpty_reverse (l : List Char) : l.reverse.isEmpty = l.isEmpty := by
  rw [Bool.eq_iff_iff, List.isEmpty_iff, List.isEmpty_iff,
    List.reverse_eq_nil_iff]

/-- Front-stripping a join removes exactly the leading blank lines, given
newline-free lines whose first characters are not whitespace. -/
theorem frontStrip_joinNL : ∀ M : List (List Char),
    (∀ l ∈ M, ∀ c ∈ l, c ≠ '\n') →
    (∀ l ∈ M, ∀ c, l.head? = some c → pyIsSpace c = false) →
    (joinNL M).dropWhile pyIsSpace = joinNL (M.dropWhile List.isEmpty)
  | [], _, _ => rfl
  | [l], hnl, hhead => by
    have hj : joinNL [l] = l := rfl
    show (joinNL [l]).dropWhile pyIsSpace = _
    rw [hj]
    cases l with
    | nil => rfl
    | cons c l' =>
      rw [dropWhile_of_head (hhead _ (by simp))]
      rfl
  | [] :: m :: rest, hnl, hhead => by
    rw [joinNL_cons (by simp)]
    simp only [List.nil_append]
    rw [List.dropWhile_cons, if_pos (by decide)]
    rw [frontStrip_joinNL (m :: rest)
      (fun l hl => hnl l (List.mem_cons_of_mem _ hl))
      (fun l hl => hhead l (List.mem_cons_of_mem _ hl))]
    rfl
  | (c :: l') :: m :: rest, hnl, hhead => by
    rw [joinNL_cons (by simp)]
    simp only [List.cons_append]
    rw [List.dropWhile_cons, if_neg (by
      simp [hhead (c :: l') (List.mem_cons_self _ _) c rfl])]
    rw [show ((c :: l') :: m :: rest).dropWhile List.isEmpty
        = (c :: l') :: m :: rest from rfl]
    conv_rhs => rw [joinNL_cons (show m :: rest ≠ [] by simp)]
    rfl

/-- Lemma: `joinNL` over an appended final line. -/
theorem joinNL_append_single : ∀ (M : List (List Char)) (x : List Char),
    M ≠ [] → joinNL (M ++ [x]) = joinNL M ++ '\n' :: x
  | [], x, h => absurd rfl h
  | [m], x, _ => rfl
  | m :: m' :: M', x, _ => by
    show joinNL (m :: (m' :: M' ++ [x])) = _
    rw [joinNL_cons (by simp), joinNL_append_single (m' :: M') x (by simp)]
    conv_rhs => rw [joinNL_cons (show m' :: M' ≠ [] by simp)]
    simp

/-- Reversing a join reverses the lines and their order. -/
theorem reverse_joinNL : ∀ M : List (List Char),
    (joinNL M).reverse = joinNL ((M.map List.reverse).reverse)
  | [] => rfl
  | [l] => rfl
  | l :: m :: rest => by
    rw [joinNL_cons (by simp)]
    rw [List.reverse_append, List.reverse_cons]
    rw [reverse_joinNL (m :: rest)]
    have hsplit : (List.map List.reverse (l :: m :: rest)).reverse
        = (List.map List.reverse (m :: rest)).reverse ++ [l.reverse] := by
      simp
    rw [hsplit, joinNL_append_single _ _ (by simp)]
    simp

/-- Stripping a join of newline-free, edge-clean lines removes exactly
the leading and trailing blank lines. -/
theorem pyStrip_joinNL (M : List (List Char))
    (hnl : ∀ l ∈ M, ∀ c ∈ l, c ≠ '\n')
    (hhead : ∀ l ∈ M, ∀ c, l.head? = some c → pyIsSpace c = false)
    (hlast : ∀ l ∈ M, ∀ c, l.getLast? = some c → pyIsSpace c = false) :
    pyStrip (joinNL M) = joinNL (trimBack (trimFront M)) := by
  have hsubN : ∀ l ∈ trimFront M, l ∈ M := fun l hl =>
    (List.dropWhile_suffix _).subset hl
  have hrevlines :
      ∀ l ∈ ((trimFront M).map List.reverse).reverse, ∃ l0 ∈ trimFront M,
        l = l0.reverse := by
    intro l hl
    rw [List.mem_reverse] at hl
    rcases List.mem_map.mp hl with ⟨l0, hl0, rfl⟩
    exact ⟨l0, hl0, rfl⟩
  unfold pyStrip
  rw [frontStrip_joinNL M hnl hhead]
  rw [show M.dropWhile List.isEmpty = trimFront M from rfl]
  rw [reverse_joinNL (trimFront M)]
  rw [frontStrip_joinNL (((trimFront M).map List.reverse).reverse)
    (by
      intro l hl c hc
      rcases hrevlines l hl with ⟨l0, hl0, rfl⟩
      exact hnl l0 (hsubN l0 hl0) c (List.mem_reverse.mp hc))
    (by
      intro l hl c hc
      rcases hrevlines l hl with ⟨l0, hl0, rfl⟩
      rw [List.head?_reverse] at hc
      exact hlast l0 (hsubN l0 hl0) c hc)]
  rw [reverse_joinNL]
  congr 1
  have hpred : (List.isEmpty ∘ List.reverse) = (List.isEmpty : List Char → Bool) := by
    funext l
    exact isEmpty_reverse l
  calc (((((trimFront M).map List.reverse).reverse).dropWhile
          List.isEmpty).map List.reverse).reverse
      = ((((trimFront M).reverse.map List.reverse).dropWhile
          List.isEmpty).map List.reverse).reverse := by
        rw [List.map_reverse]
    _ = ((((trimFront M).reverse.dropWhile (List.isEmpty ∘ List.reverse)).map
          List.reverse).map List.reverse).reverse := by
        rw [List.dropWhile_map]
    _ = (((trimFront M).reverse.dropWhile List.isEmpty).map
          (List.reverse ∘ List.reverse)).reverse := by
        rw [hpred, List.map_map]
    _ = ((trimFront M).reverse.dropWhile List.isEmpty).reverse := by
        have : (List.reverse ∘ List.reverse) = (id : List Char → List Char) := by
          funext l
          simp
        rw [this, List.map_id]
    _ = trimBack (trimFront M) := rfl

/-- Trimming leading blanks is the identity without a leading blank. -/
theorem trimFront_id {M : List (List Char)} (h : M.head? ≠ some []) :
    trimFront M = M := by
  unfold trimFront
  apply dropWhile_of_head
  intro l hl
  cases M with
  | nil => exact absurd hl (by simp)
  | cons a as =>
    simp only [List.head?_cons, Option.some.injEq] at hl
    subst hl
    have ha : a ≠ [] := by
      intro h0
      exact h (by rw [h0]; rfl)
    simp [List.isEmpty_iff, ha]

/-- Trimming trailing blanks is the identity without a trailing blank. -/
theorem trimBack_id {M : List (List Char)} (h : M.getLast? ≠ some []) :
    trimBack M = M := by
  unfold trimBack
  have h' : ∀ l, M.reverse.head? = some l → List.isEmpty l = false := by
    intro l hl
    rw [List.head?_reverse] at hl
    have ha : l ≠ [] := by
      intro h0
      exact h (h0 ▸ hl)
    simp [List.isEmpty_iff, ha]
  rw [dropWhile_of_head h', List.reverse_reverse]

/-- Core of the canonical form: stripping the join of edge-clean lines
trims the blank edges, preserving membership, the no-consecutive-blanks
chain, and blank-free edges. -/
theorem canonical_core (K : List (List Char))
    (hKnl : ∀ l ∈ K, ∀ c ∈ l, c ≠ '\n')
    (hKhead : ∀ l ∈ K, ∀ c, l.head? = some c → pyIsSpace c = false)
    (hKlast : ∀ l ∈ K, ∀ c, l.getLast? = some c → pyIsSpace c = false)
    (hKchain : K.Chain' (fun a b => a = [] → b ≠ [])) :
    pyStrip (joinNL K) = joinNL (trimBack (trimFront K)) ∧
    (∀ l ∈ trimBack (trimFront K), l ∈ K) ∧
    (trimBack (trimFront K)).Chain' (fun a b => a = [] → b ≠ []) ∧
    (trimBack (trimFront K)).head? ≠ some [] ∧
    (trimBack (trimFront K)).getLast? ≠ some [] := by
  have hMK : ∀ l ∈ trimBack (trimFront K), l ∈ K := by
    intro l hl
    unfold trimBack at hl
    have h1 : l ∈ (trimFront K).reverse.dropWhile List.isEmpty :=
      List.mem_reverse.mp hl
    have h2 : l ∈ (trimFront K).reverse :=
      (List.dropWhile_suffix _).subset h1
    have h3 : l ∈ trimFront K := List.mem_reverse.mp h2
    exact (List.dropWhile_suffix _).subset h3
  have hsf : trimFront K <:+ K := List.dropWhile_suffix _
  have hpref : trimBack (trimFront K) <+: trimFront K := by
    obtain ⟨s, hs⟩ :
        (trimFront K).reverse.dropWhile List.isEmpty <:+
          (trimFront K).reverse := List.dropWhile_suffix _
    refine ⟨s.reverse, ?_⟩
    unfold trimBack
    rw [← List.reverse_append, hs, List.reverse_reverse]
  have hchainM : (trimBack (trimFront K)).Chain' (fun a b => a = [] → b ≠ []) :=
    List.Chain'.prefix (hKchain.suffix hsf) hpref
  have hMhead : (trimBack (trimFront K)).head? ≠ some [] := by
    unfold trimBack
    rw [List.head?_reverse]
    cases hW : (trimFront K).reverse.dropWhile List.isEmpty with
    | nil => simp
    | cons w ws =>
      have hne : (trimFront K).reverse.dropWhile List.isEmpty ≠ [] := by
        rw [hW]; simp
      rw [← hW,
        getLast?_of_suffix (List.dropWhile_suffix _) hne,
        List.getLast?_reverse]
      cases hTF : trimFront K with
      | nil => simp
      | cons a as =>
        have hae : List.isEmpty a = false := by
          apply dropWhile_head_not K
          rw [show K.dropWhile List.isEmpty = trimFront K from rfl, hTF]
          rfl
        simp only [List.head?_cons, ne_eq, Option.some.injEq]
        intro h0
        rw [h0] at hae
        exact absurd hae (by simp)
  have hMlast : (trimBack (trimFront K)).getLast? ≠ some [] := by
    unfold trimBack
    rw [List.getLast?_reverse]
    cases hW : (trimFront K).reverse.dropWhile List.isEmpty with
    | nil => simp
    | cons w ws =>
      have hwe : List.isEmpty w = false := by
        apply dropWhile_head_not ((trimFront K).reverse)
        rw [hW]
        rfl
      simp only [List.head?_cons, ne_eq, Option.some.injEq]
      intro h0
      rw [h0] at hwe
      exact absurd hwe (by simp)
  exact ⟨pyStrip_joinNL K hKnl hKhead hKlast, hMK, hchainM, hMhead, hMlast⟩

/-- Canonical form of a `clean_text` output: it is the join of a list of
lines that are newline-free, strip-stable at both ends, with no two
consecutive blank lines and no blank line at either edge. -/
theorem clean_text_canonical (t : List Char) :
    ∃ M : List (List Char),
      clean_text t = joinNL M ∧
      (∀ l ∈ M, ∀ c ∈ l, c ≠ '\n') ∧
      (∀ l ∈ M, ∀ c, l.head? = some c → pyIsSpace c = false) ∧
      (∀ l ∈ M, ∀ c, l.getLast? = some c → pyIsSpace c = false) ∧
      M.Chain' (fun a b => a = [] → b ≠ []) ∧
      M.head? ≠ some [] ∧ M.getLast? ≠ some [] := by
  have hKline : ∀ l ∈ dedupeBlank false
      ((splitLines (capNL (replaceCR (replaceCRLF (cleanStep1 t))) 0)).map
        pyStrip),
      ∃ l0, l0 ∈ splitLines (capNL (replaceCR (replaceCRLF (cleanStep1 t))) 0)
        ∧ l = pyStrip l0 := by
    intro l hl
    have h1 := mem_dedupeBlank _ _ hl
    rcases List.mem_map.mp h1 with ⟨l0, hl0, rfl⟩
    exact ⟨l0, hl0, rfl⟩
  have hKnl : ∀ l ∈ dedupeBlank false
      ((splitLines (capNL (replaceCR (replaceCRLF (cleanStep1 t))) 0)).map
        pyStrip), ∀ c ∈ l, c ≠ '\n' := by
    intro l hl c hc
    rcases hKline l hl with ⟨l0, hl0, rfl⟩
    exact (mem_splitLines _ l0 hl0 (mem_pyStrip hc)).2
  have hKhead : ∀ l ∈ dedupeBlank false
      ((splitLines (capNL (replaceCR (replaceCRLF (cleanStep1 t))) 0)).map
        pyStrip), ∀ c, l.head? = some c → pyIsSpace c = false := by
    intro l hl c hc
    rcases hKline l hl with ⟨l0, _, rfl⟩
    exact pyStrip_head c hc
  have hKlast : ∀ l ∈ dedupeBlank false
      ((splitLines (capNL (replaceCR (replaceCRLF (cleanStep1 t))) 0)).map
        pyStrip), ∀ c, l.getLast? = some c → pyIsSpace c = false := by
    intro l hl c hc
    rcases hKline l hl with ⟨l0, _, rfl⟩
    exact pyStrip_last c hc
  obtain ⟨heq, hMK, hchainM, hMh, hMl⟩ := canonical_core _ hKnl hKhead hKlast
    (dedupeBlank_chain _ false)
  refine ⟨_, heq, ?_, ?_, ?_, hchainM, hMh, hMl⟩
  · intro l hl
    exact hKnl l (hMK l hl)
  · intro l hl
    exact hKhead l (hMK l hl)
  · intro l hl
    exact hKlast l (hMK l hl)

/-- C2: the text normalizer is idempotent — cleaning an already-cleaned
text changes nothing. -/
theorem C2_clean_text_idempotent : ∀ t : List Char,
    clean_text (clean_text t) = clean_text t := by
  intro t
  obtain ⟨M, hM, hnl, hhead, hlast, hchain, hMh, hMl⟩ := clean_text_canonical t
  by_cases hMe : M = []
  · rw [hM, hMe]
    decide
  · have hstable : ∀ l ∈ M, pyStrip l = l := fun l hl =>
      pyStrip_eq_self (hhead l hl) (hlast l hl)
    have hch : ∀ c ∈ joinNL M, allowedChar c = true ∧ c ≠ '\x0d' := by
      rw [← hM]
      exact clean_text_chars
    have h1 : cleanStep1 (joinNL M) = joinNL M :=
      cleanStep1_id (fun c hc => (hch c hc).1)
    have h2 : replaceCRLF (joinNL M) = joinNL M :=
      replaceCRLF_id _ (fun c hc => (hch c hc).2)
    have h3 : replaceCR (joinNL M) = joinNL M :=
      replaceCR_id (fun c hc => (hch c hc).2)
    have h4 : capNL (joinNL M) 0 = joinNL M :=
      capNL_joinNL M 0 hnl hchain (Or.inl (by omega))
    have h5 : splitLines (joinNL M) = M := splitLines_joinNL M hMe hnl
    have h6 : M.map pyStrip = M := by
      calc M.map pyStrip = M.map id :=
            List.map_congr_left (fun l hl => hstable l hl)
        _ = M := List.map_id M
    have h7 : dedupeBlank false M = M :=
      dedupeBlank_id M false hchain (fun h => absurd h (by simp))
    have h8 : pyStrip (joinNL M) = joinNL M := by
      rw [pyStrip_joinNL M hnl hhead hlast, trimFront_id hMh, trimBack_id hMl]
    calc clean_text (clean_text t) = clean_text (joinNL M) := by rw [hM]
      _ = pyStrip (joinNL (dedupeBlank false ((splitLines (capNL (replaceCR
            (replaceCRLF (cleanStep1 (joinNL M)))) 0)).map pyStrip))) := rfl
      _ = joinNL M := by rw [h1, h2, h3, h4, h5, h6, h7, h8]
      _ = clean_text t := hM.symm
